import Mathlib

/-!
Verification of the versioned-backup engine of Valbak (src/file.rs) against its
natural-language specification.

Modelling conventions (shallow embedding):
* Filesystem paths are plain strings with components separated by a forward slash,
  exactly as the Rust code manipulates them through string operations
  (rfind of a dot, file_name, parent, join).
* The filesystem is a list of file entries, each holding a path, a size and a
  modification timestamp (the only metadata the code inspects).
* The glob crate is modelled by a matcher supporting the star and question-mark
  wildcards with the default MatchOptions used by Pattern::matches_path, where a
  wildcard may also match a path separator.  Character classes in brackets are not
  modelled; none of the verified properties depend on them.  Directory components
  of the patterns handed to the filesystem glob function are taken literally, as
  they are concrete folder names in every call site of file.rs.
* Fallible Rust functions returning anyhow::Result are embedded as Except String,
  and functions that mutate the filesystem thread an explicit filesystem value.
-/

namespace Valbak

/-- A file entry of the modelled filesystem: path, byte size and mtime. -/
structure FileEntry where
  path : String
  size : Nat
  mtime : Nat
deriving Repr, DecidableEq

/-- The modelled filesystem: the list of files that exist. -/
abbrev FS := List FileEntry

/-- Mirrors settings.rs BackupFilePattern as used by file.rs: a source directory
and a filename glob. -/
structure BackupFilePattern where
  source_dir : String
  filename_pattern : String
deriving Repr, DecidableEq

/-- Mirrors the fields of settings.rs Settings that file.rs reads. -/
structure Settings where
  backup_patterns : List BackupFilePattern
  backup_dest_path : String
  backup_count : Nat
deriving Repr, DecidableEq

/-! ### String and path primitives -/

/-- Splits a character list at the last occurrence of a separator character,
returning the part before and the part after it.  It is the common core of the
Rust rfind-based parsing and of the file_name and parent operations of Path. -/
def splitAtLastChar (sep : Char) : List Char → Option (List Char × List Char)
  | [] => none
  | c :: cs =>
    match splitAtLastChar sep cs with
    | some (p, s) => some (c :: p, s)
    | none => if c = sep then some ([], cs) else none

/-- The part of a path after the last slash, as Rust Path::file_name returns it
for the well-formed paths the program manipulates (no trailing separator). -/
def fileNameStr (s : String) : String :=
  match splitAtLastChar '/' s.data with
  | none => s
  | some (_, f) => String.mk f

/-- The part of a path before the last slash, as Rust Path::parent returns it for
the relative-style paths the program manipulates. -/
def parentStr (s : String) : String :=
  match splitAtLastChar '/' s.data with
  | none => ""
  | some (p, _) => String.mk p

/-- Path join with a relative right operand, as PathBuf::join behaves on the
names the program joins. -/
def joinPath (p q : String) : String :=
  if p = "" then q else p ++ "/" ++ q

/-- Numeric value of an ASCII digit character. -/
def digitVal (c : Char) : Option Nat :=
  if '0' ≤ c ∧ c ≤ '9' then some (c.toNat - 48) else none

/-- Accumulating decimal parser over a digit list. -/
def digitsToNatAux : Nat → List Char → Option Nat
  | acc, [] => some acc
  | acc, c :: cs =>
    match digitVal c with
    | none => none
    | some d => digitsToNatAux (acc * 10 + d) cs

/-- Decimal parser: succeeds on a non-empty all-digit list. -/
def digitsToNat : List Char → Option Nat
  | [] => none
  | l => digitsToNatAux 0 l

/-- Rust u32::from_str: an optional leading plus sign, then one or more decimal
digits, and the value must fit in thirty-two bits. -/
def parseU32 (l : List Char) : Option Nat :=
  match digitsToNat (if l.head? = some '+' then l.tail else l) with
  | none => none
  | some n => if n < 4294967296 then some n else none

/-- Fuel-driven digit accumulator; the fuel is structural so that concrete
instances reduce inside the kernel. -/
def natToDigitsAux : Nat → Nat → List Char → List Char
  | 0, _, acc => acc
  | fuel + 1, n, acc =>
    if n < 10 then Char.ofNat (48 + n) :: acc
    else natToDigitsAux fuel (n / 10) (Char.ofNat (48 + n % 10) :: acc)

/-- Decimal digit list of a natural number, most significant first, mirroring
Rust integer Display formatting. -/
def natToDigits (n : Nat) : List Char := natToDigitsAux (n + 1) n []

/-- Decimal rendering of a natural number as a string. -/
def natRepr (n : Nat) : String := String.mk (natToDigits n)

/-! ### Glob matching

Models glob::Pattern::matches with the default MatchOptions of the glob crate:
a star matches any possibly empty character sequence (a path separator
included), a question mark matches any single character, all other characters
match themselves.  Bracket character classes are not modelled. -/

def globMatch : List Char → List Char → Bool
  | [], s => s.isEmpty
  | p :: ps, s =>
    if p = '*' then (List.range (s.length + 1)).any (fun i => globMatch ps (s.drop i))
    else
      match s with
      | [] => false
      | c :: cs => if p = '?' then globMatch ps cs else p = c && globMatch ps cs

/-- Glob matching on strings. -/
def globMatchS (pat s : String) : Bool := globMatch pat.data s.data

/-! ### Filesystem primitives -/

/-- Removes every entry with the given path. -/
def fsRemove (fs : FS) (p : String) : FS := fs.filter (fun e => e.path ≠ p)

/-- Creates or overwrites the file at a path. -/
def fsWrite (fs : FS) (p : String) (sz mt : Nat) : FS :=
  ⟨p, sz, mt⟩ :: fsRemove fs p

/-- Renames a file, overwriting the destination, as std::fs::rename does. -/
def fsRename (fs : FS) (old new_ : String) : FS :=
  match fs.find? (fun e => e.path = old) with
  | none => fs
  | some e => fsWrite (fsRemove fs old) new_ e.size e.mtime

/-- First entry at a path, if the file exists. -/
def fsFind (fs : FS) (p : String) : Option FileEntry :=
  fs.find? (fun e => e.path = p)

/-- Model of a glob over one directory: the paths of the entries whose parent
directory is the given one and whose filename matches the pattern.  The glob
calls of file.rs all have a concrete directory part and a filename pattern. -/
def globDir (fs : FS) (dir filePat : String) : List String :=
  (fs.filter (fun e =>
    parentStr e.path = dir && globMatch filePat.data (fileNameStr e.path).data)).map
    (fun e => e.path)

/-! ### Embedded functions of src/file.rs -/

/-- file.rs lines 276-288, get_backed_up_version_number: take the filename of
the path, find its last dot, parse the suffix as a u32. -/
def get_backed_up_version_number (backed_up_file_path : String) : Option Nat :=
  match splitAtLastChar '.' (fileNameStr backed_up_file_path).data with
  | none => none
  | some (_, suf) => parseU32 suf

/-- file.rs lines 300-306, strip_version_suffix_from_backed_up_file_path: find
the last dot of the whole path string and truncate there. -/
def strip_version_suffix_from_backed_up_file_path (backed_up_file_path : String) :
    Option String :=
  match splitAtLastChar '.' backed_up_file_path.data with
  | none => none
  | some (pre, _) => some (String.mk pre)

/-- file.rs lines 59-81, get_live_files: for every configured pattern, glob the
source directory with the filename pattern and collect the matches.  Glob read
errors are not modelled (the modelled filesystem is always readable). -/
def get_live_files (settings : Settings) (fs : FS) : List String :=
  settings.backup_patterns.flatMap (fun bp => globDir fs bp.source_dir bp.filename_pattern)

/-- file.rs lines 84-116, get_backed_up_files: for every configured pattern,
glob dest/folder-name with the pattern extended by a dot-star suffix, and keep
only the entries whose version number parses. -/
def get_backed_up_files (settings : Settings) (fs : FS) : List String :=
  settings.backup_patterns.flatMap (fun bp =>
    (globDir fs (joinPath settings.backup_dest_path (fileNameStr bp.source_dir))
      (bp.filename_pattern ++ ".*")).filter
      (fun p => (get_backed_up_version_number p).isSome))

/-- The per-pattern condition of the pattern-search loop of file.rs lines
139-146: folder name equality and filename-pattern match against the full live
path. -/
def matchesLiveFile (live : String) (bp : BackupFilePattern) : Bool :=
  fileNameStr bp.source_dir = fileNameStr (parentStr live) &&
  globMatchS bp.filename_pattern live

/-- file.rs lines 136-153, the pattern-search loop at the start of
live_file_has_backup: scan all patterns, remember a pattern each time it
matches, so that the last match survives the loop. -/
def found_backup_pattern (settings : Settings) (live_file_path : String) :
    Option BackupFilePattern :=
  settings.backup_patterns.foldl
    (fun acc bp => if matchesLiveFile live_file_path bp then some bp else acc)
    none

/-- file.rs lines 402-444, get_backed_up_version_paths: glob dest/folder-name
with the filename pattern extended by a dot-star suffix; no filtering on the
version suffix is performed. -/
def get_backed_up_version_paths (backup_dest_path : String)
    (backup_pattern : BackupFilePattern) (fs : FS) : List String :=
  globDir fs (joinPath backup_dest_path (fileNameStr backup_pattern.source_dir))
    (backup_pattern.filename_pattern ++ ".*")

/-- file.rs lines 488-512, get_file_metadata: size and mtime of an existing
file, an error for a missing one. -/
def get_file_metadata (fs : FS) (file_path : String) : Except String (Nat × Nat) :=
  match fsFind fs file_path with
  | none => .error ("Cannot read metadata for changed file " ++ file_path)
  | some e => .ok (e.size, e.mtime)

/-- The comparison loop of file.rs lines 172-181: walk the backed up version
paths and report true on the first one whose size and mtime both equal the
live file values. -/
def anyVersionMatches (fs : FS) (lsz lmt : Nat) :
    List String → Except String Bool
  | [] => .ok false
  | v :: rest =>
    match get_file_metadata fs v with
    | .error e => .error e
    | .ok (bsz, bmt) =>
      if bsz = lsz && bmt = lmt then .ok true else anyVersionMatches fs lsz lmt rest

/-- file.rs lines 133-182, live_file_has_backup: resolve the pattern (last
match wins), list the backed up version paths for the pattern, and report
whether any has the same size and mtime as the live file. -/
def live_file_has_backup (settings : Settings) (fs : FS) (live_file_path : String) :
    Except String Bool :=
  match found_backup_pattern settings live_file_path with
  | none => .error ("Cannot find backup configuration for changed file " ++ live_file_path)
  | some bp =>
    match get_file_metadata fs live_file_path with
    | .error e => .error e
    | .ok (lsz, lmt) =>
      anyVersionMatches fs lsz lmt
        (get_backed_up_version_paths settings.backup_dest_path bp fs)

/-- file.rs lines 234-273, next_backup_version: glob the destination folder for
filename dot-star, fold the maximum of the parsed version numbers, counting an
unparsable suffix as zero, and add one.  The Rust u32 arithmetic is modelled on
Nat; the claims that depend on it carry the thirty-two bit bound explicitly. -/
def next_backup_version (fs : FS) (backed_up_folder backup_filename : String) : Nat :=
  (globDir fs backed_up_folder (backup_filename ++ ".*")).foldl
    (fun acc p => max acc ((get_backed_up_version_number p).getD 0)) 0 + 1

/-- file.rs lines 185-231, back_up_live_file, with the assigned version number
also returned for the analysis of the version ledger.  Steps: ensure the
destination folder (implicit in the model), copy the live file to a temp name
prefixed with an underscore, stamp the temp file with the live mtime (the copy
and the stamping are collapsed into one write since the intermediate mtime is
never observed), compute the next version and rename.  The copy fails exactly
when the live file does not exist, the modelled failure of std::fs::copy. -/
def back_up_live_file_core (settings : Settings) (fs : FS) (live_file_path : String) :
    Except String (FS × Nat) :=
  let folder := fileNameStr (parentStr live_file_path)
  let backup_dest_path := joinPath settings.backup_dest_path folder
  let live_filename := fileNameStr live_file_path
  let temp_backup_file_path := joinPath backup_dest_path ("_" ++ live_filename)
  match get_file_metadata fs live_file_path with
  | .error e => .error ("Error copying file: " ++ e)
  | .ok (lsz, lmt) =>
    let fs2 := fsWrite fs temp_backup_file_path lsz lmt
    let next_version := next_backup_version fs2 backup_dest_path live_filename
    let backed_up_file_path :=
      joinPath backup_dest_path (live_filename ++ "." ++ natRepr next_version)
    .ok (fsRename fs2 temp_backup_file_path backed_up_file_path, next_version)

/-- file.rs back_up_live_file as called by the rest of the code. -/
def back_up_live_file (settings : Settings) (fs : FS) (live_file_path : String) :
    Except String FS :=
  (back_up_live_file_core settings fs live_file_path).map (fun r => r.1)

/-- Insertion into the multimap of file.rs line 321: append the value to the
group of its key, or start a new group. -/
def insertMM (k v : String) : List (String × List String) → List (String × List String)
  | [] => [(k, [v])]
  | (k', vs) :: rest =>
    if k' = k then (k', vs ++ [v]) :: rest else (k', vs) :: insertMM k v rest

/-- The grouping loop of file.rs lines 314-322: strip each backed up path and
insert it under the stripped key, failing as the code does when a path has no
version suffix to strip. -/
def groupByStripped (acc : List (String × List String)) :
    List String → Except String (List (String × List String))
  | [] => .ok acc
  | p :: rest =>
    match strip_version_suffix_from_backed_up_file_path p with
    | none => .error ("Unable to find version suffix in " ++ p)
    | some sp => groupByStripped (insertMM sp p acc) rest

/-- Version value used by the pruner sort comparator of file.rs lines 326-330.
The code unwraps the parsed version number; the panic-freedom of that unwrap is
the subject of a separate safety theorem, and the default zero here is never
exercised on the lists the pruner sorts. -/
def verVal (p : String) : Nat := (get_backed_up_version_number p).getD 0

/-- Comparator of the pruner sort: ascending version number. -/
def verLe (a b : String) : Bool := verVal a ≤ verVal b

/-- Stable insertion of an element after all elements less than or equal to it. -/
def sortedInsert (x : String) : List String → List String
  | [] => [x]
  | y :: ys => if verLe y x then y :: sortedInsert x ys else x :: y :: ys

/-- Stable sort by ascending version number, the model of the stable
Vec::sort_by of file.rs line 326. -/
def sortByVersion (l : List String) : List String := l.foldl (fun acc x => sortedInsert x acc) []

/-- Doomed entries of one group, file.rs lines 325-331: when the group exceeds
the retention count, the lowest-version entries beyond the count. -/
def doomedOf (backup_count : Nat) (g : List String) : List String :=
  if backup_count < g.length then (sortByVersion g).take (g.length - backup_count) else []

/-- file.rs lines 310-342, delete_old_backups: list the backed up files, group
them by stripped path, and for every group larger than the retention count
remove the lowest-version excess entries.  Removal failures are logged by the
code and leave the file in place; the model removes each doomed path.  The
iteration order of the multimap does not affect the final filesystem because
the groups name disjoint paths. -/
def delete_old_backups (settings : Settings) (fs : FS) : Except String FS :=
  match groupByStripped [] (get_backed_up_files settings fs) with
  | .error e => .error e
  | .ok groups =>
    let doomed := groups.flatMap (fun kg => doomedOf settings.backup_count kg.2)
    .ok (fs.filter (fun e => !(doomed.contains e.path)))

/-- The per-file loop of file.rs lines 119-128, backup_all_changed_files, over
an already computed live-file list: skip a file with a backup, otherwise back
it up and prune, and propagate the first failure, abandoning the rest. -/
def backupAllLoop (settings : Settings) (fs : FS) :
    List String → Except String Unit × FS
  | [] => (.ok (), fs)
  | live :: rest =>
    match live_file_has_backup settings fs live with
    | .error e => (.error e, fs)
    | .ok true => backupAllLoop settings fs rest
    | .ok false =>
      match back_up_live_file settings fs live with
      | .error e => (.error e, fs)
      | .ok fs1 =>
        match delete_old_backups settings fs1 with
        | .error e => (.error e, fs1)
        | .ok fs2 => backupAllLoop settings fs2 rest

/-- file.rs lines 119-128, backup_all_changed_files: enumerate the live files
once, then run the per-file loop.  The filesystem reached so far is returned
beside the result since a failure does not undo earlier backups. -/
def backup_all_changed_files (settings : Settings) (fs : FS) :
    Except String Unit × FS :=
  backupAllLoop settings fs (get_live_files settings fs)

/-- The pattern scan of file.rs lines 459-482: find the first pattern whose
folder name matches and whose full glob accepts the stripped filename grafted
onto the pattern source directory. -/
def findLiveFor (folderName strippedName backed : String) :
    List BackupFilePattern → Except String String
  | [] => .error ("Failed to find source file for backed up file " ++ backed)
  | bp :: rest =>
    let backup_pattern_path := joinPath bp.source_dir bp.filename_pattern
    if fileNameStr (parentStr backup_pattern_path) = folderName then
      let expected_live_file_path := joinPath (parentStr backup_pattern_path) strippedName
      if globMatchS backup_pattern_path expected_live_file_path then
        .ok expected_live_file_path
      else findLiveFor folderName strippedName backed rest
    else findLiveFor folderName strippedName backed rest

/-- file.rs lines 448-485, get_live_file_for_backed_up_file: strip the version
suffix, take the resulting filename, and graft it onto the first pattern whose
folder name matches the backed up folder and whose glob accepts the result. -/
def get_live_file_for_backed_up_file (settings : Settings) (backed_up_file : String) :
    Except String String :=
  let backed_up_folder_name := fileNameStr (parentStr backed_up_file)
  match strip_version_suffix_from_backed_up_file_path backed_up_file with
  | none => .error ("invalid backed up file name: " ++ backed_up_file)
  | some stripped =>
    findLiveFor backed_up_folder_name (fileNameStr stripped) backed_up_file
      settings.backup_patterns

/-- file.rs lines 361-399, restore_backed_up_files: for each selected backup,
resolve its live path with the question-mark operator (a resolution failure
aborts the whole call), read the backup metadata (a failure is logged and the
file is skipped), copy to a temp file beside the backup, stamp the backup
mtime, and rename over the live path.  The copy, stamp and rename are
infallible in the model once the backup entry exists, so the modelled per-file
failure is the metadata read. -/
def restore_backed_up_files (settings : Settings) (fs : FS) :
    List String → Except String Unit × FS
  | [] => (.ok (), fs)
  | backed :: rest =>
    let backed_up_folder_path := parentStr backed
    match get_live_file_for_backed_up_file settings backed with
    | .error e => (.error e, fs)
    | .ok source_file_path =>
      let temp_source_file_path :=
        joinPath backed_up_folder_path ("_" ++ fileNameStr source_file_path)
      match get_file_metadata fs backed with
      | .error _ => restore_backed_up_files settings fs rest
      | .ok (bsz, bmt) =>
        let fs1 := fsWrite fs temp_source_file_path bsz bmt
        let fs2 := fsRename fs1 temp_source_file_path source_file_path
        restore_backed_up_files settings fs2 rest

/-! ### Spec-side definitions

Each definition below follows the wording of the specification and is compared
with the corresponding embedded source function by a refinement theorem or
used to state a claim in the specification's own vocabulary. -/

/-- Written from the spec (4.2, next_version_number): one plus the maximum of
the existing numeric suffixes of the versioned backups for the identity, or one
if no entry with a numeric suffix exists; entries whose suffix does not parse
are ignored. -/
def specNextVersionNumber (fs : FS) (backed_up_folder backup_filename : String) : Nat :=
  match ((globDir fs backed_up_folder (backup_filename ++ ".*")).filterMap
      get_backed_up_version_number).max? with
  | none => 1
  | some m => m + 1

/-- Written from the spec (3, VersionedBackup): a path is a versioned backup of
the given live file when it sits in dest/(source folder name of the live file),
its filename is the live filename followed by a dot, and the remainder parses
as a version number. -/
def specIsVersionedBackupOf (backup_dest_path live p : String) : Bool :=
  parentStr p = joinPath backup_dest_path (fileNameStr (parentStr live)) &&
  (match splitAtLastChar '.' (fileNameStr p).data with
   | none => false
   | some (pre, suf) =>
     decide (pre = (fileNameStr live).data) && (parseU32 suf).isSome)

/-- Written from the spec (4.3, duplicate_check): some existing versioned
backup of the live file's identity has the same size and the same modification
timestamp as the live file. -/
def specHasDuplicateBackup (settings : Settings) (fs : FS) (live : String) : Bool :=
  match fsFind fs live with
  | none => false
  | some le =>
    fs.any (fun e =>
      specIsVersionedBackupOf settings.backup_dest_path live e.path &&
      e.size = le.size && e.mtime = le.mtime)

/-- Written from the spec (3, LiveFile): the first matching pattern in
configuration order. -/
def firstMatchingPattern (settings : Settings) (live : String) : Option BackupFilePattern :=
  settings.backup_patterns.find? (matchesLiveFile live)

/-- The last matching pattern in configuration order, the policy the source
loop actually implements. -/
def lastMatchingPattern (settings : Settings) (live : String) : Option BackupFilePattern :=
  settings.backup_patterns.reverse.find? (matchesLiveFile live)

/-! ### Version-ledger traces

A trace of back-up and prune operations on one designated live file, recording
the version numbers the backup operation assigns, for the monotonicity claim. -/

inductive LedgerOp where
  | backup : LedgerOp
  | prune : LedgerOp
deriving Repr, DecidableEq

/-- Runs a trace of operations on the designated live file, returning the final
filesystem and the version numbers assigned by the successful backups.  A
failed operation leaves the filesystem unchanged and assigns nothing, as the
callers of file.rs treat per-operation errors. -/
def runOps (settings : Settings) (live : String) : List LedgerOp → FS → FS × List Nat
  | [], fs => (fs, [])
  | .backup :: rest, fs =>
    match back_up_live_file_core settings fs live with
    | .error _ => runOps settings live rest fs
    | .ok (fs1, v) =>
      let r := runOps settings live rest fs1
      (r.1, v :: r.2)
  | .prune :: rest, fs =>
    match delete_old_backups settings fs with
    | .error _ => runOps settings live rest fs
    | .ok fs1 => runOps settings live rest fs1

/-- Side conditions along a trace under which the Rust code is faithfully
modelled by Nat arithmetic and list pruning: every assigned version number fits
in a u32 (so its decimal suffix parses back), and at every prune the backed-up
listing is duplicate-free (overlapping patterns would list one file twice and
make the pruner delete the retained copies). -/
def okAlong (settings : Settings) (live : String) : List LedgerOp → FS → Bool
  | [], _ => true
  | .backup :: rest, fs =>
    match back_up_live_file_core settings fs live with
    | .error _ => okAlong settings live rest fs
    | .ok (fs1, v) => decide (v < 4294967296) && okAlong settings live rest fs1
  | .prune :: rest, fs =>
    decide (get_backed_up_files settings fs).Nodup &&
    (match delete_old_backups settings fs with
     | .error _ => okAlong settings live rest fs
     | .ok fs1 => okAlong settings live rest fs1)

/-! ### Lemmas about the string and path primitives -/

theorem splitAtLastChar_eq_none_iff (sep : Char) (l : List Char) :
    splitAtLastChar sep l = none ↔ sep ∉ l := by
  induction l with
  | nil => simp [splitAtLastChar]
  | cons c cs ih =>
    simp only [splitAtLastChar]
    cases h : splitAtLastChar sep cs with
    | some v =>
      have hmem : sep ∈ cs := by
        by_contra hn
        rw [ih.2 hn] at h
        exact Option.noConfusion h
      simp [List.mem_cons, hmem]
    | none =>
      have hcs : sep ∉ cs := ih.1 h
      by_cases hc : c = sep
      · subst hc
        simp [List.mem_cons]
      · simp only [if_neg hc, List.mem_cons]
        constructor
        · intro _ hor
          rcases hor with hor | hor
          · exact hc hor.symm
          · exact hcs hor
        · intro _
          trivial

theorem splitAtLastChar_append_of_not_mem (sep : Char) (p s : List Char)
    (h : sep ∉ s) : splitAtLastChar sep (p ++ sep :: s) = some (p, s) := by
  induction p with
  | nil =>
    simp only [List.nil_append, splitAtLastChar]
    rw [(splitAtLastChar_eq_none_iff sep s).2 h]
    simp
  | cons c cs ih => simp [splitAtLastChar, ih]

theorem splitAtLastChar_eq_some (sep : Char) (l p s : List Char)
    (h : splitAtLastChar sep l = some (p, s)) : l = p ++ sep :: s ∧ sep ∉ s := by
  induction l generalizing p s with
  | nil => simp [splitAtLastChar] at h
  | cons c cs ih =>
    simp only [splitAtLastChar] at h
    cases hc : splitAtLastChar sep cs with
    | some v =>
      rw [hc] at h
      obtain ⟨p1, s1⟩ := v
      simp only [Option.some.injEq, Prod.mk.injEq] at h
      obtain ⟨h1, h2⟩ := h
      obtain ⟨he, hns⟩ := ih p1 s1 hc
      subst h2
      constructor
      · rw [← h1, he]
        simp
      · exact hns
    | none =>
      rw [hc] at h
      by_cases hcs : c = sep
      · simp only [if_pos hcs, Option.some.injEq, Prod.mk.injEq] at h
        obtain ⟨h1, h2⟩ := h
        subst h2
        constructor
        · rw [← h1, hcs]
          simp
        · exact (splitAtLastChar_eq_none_iff sep cs).1 hc
      · simp [if_neg hcs] at h

theorem splitAtLastChar_append_right (sep : Char) (l t : List Char) (ht : sep ∉ t) :
    splitAtLastChar sep (l ++ t) =
      match splitAtLastChar sep l with
      | none => none
      | some (p, s) => some (p, s ++ t) := by
  cases h : splitAtLastChar sep l with
  | none =>
    have hl := (splitAtLastChar_eq_none_iff sep l).1 h
    exact (splitAtLastChar_eq_none_iff sep (l ++ t)).2
      (fun hm => (List.mem_append.1 hm).elim hl ht)
  | some v =>
    obtain ⟨p, s⟩ := v
    obtain ⟨rfl, hs⟩ := splitAtLastChar_eq_some sep l p s h
    show splitAtLastChar sep ((p ++ sep :: s) ++ t) = some (p, s ++ t)
    rw [List.append_assoc, List.cons_append]
    exact splitAtLastChar_append_of_not_mem sep p (s ++ t)
      (fun hm => (List.mem_append.1 hm).elim hs ht)

theorem string_mk_data (s : String) : String.mk s.data = s := rfl

theorem string_data_mk (l : List Char) : (String.mk l).data = l := rfl

theorem string_eq_empty_iff (s : String) : s = "" ↔ s.data = [] := by
  constructor
  · intro h
    rw [h]
  · intro h
    rw [← string_mk_data s, h]

theorem data_append (a b : String) : (a ++ b).data = a.data ++ b.data :=
  String.data_append a b

theorem join_data (p q : String) (hp : p ≠ "") :
    (joinPath p q).data = p.data ++ '/' :: q.data := by
  unfold joinPath
  rw [if_neg hp, data_append, data_append]
  have hsl : "/".data = ['/'] := by decide
  rw [hsl, List.append_assoc]
  rfl

theorem fileName_join (p q : String) (hs : '/' ∉ q.data) :
    fileNameStr (joinPath p q) = q := by
  by_cases hp : p = ""
  · subst hp
    unfold joinPath
    rw [if_pos rfl]
    unfold fileNameStr
    rw [(splitAtLastChar_eq_none_iff '/' q.data).2 hs]
  · unfold fileNameStr
    rw [join_data p q hp, splitAtLastChar_append_of_not_mem '/' p.data q.data hs]

theorem parent_join (p q : String) (hp : p ≠ "") (hs : '/' ∉ q.data) :
    parentStr (joinPath p q) = p := by
  unfold parentStr
  rw [join_data p q hp, splitAtLastChar_append_of_not_mem '/' p.data q.data hs]

theorem fileName_no_slash (s : String) : '/' ∉ (fileNameStr s).data := by
  unfold fileNameStr
  cases h : splitAtLastChar '/' s.data with
  | none => exact (splitAtLastChar_eq_none_iff '/' s.data).1 h
  | some v =>
    obtain ⟨p, f⟩ := v
    obtain ⟨-, hf⟩ := splitAtLastChar_eq_some '/' s.data p f h
    simpa [string_data_mk] using hf

/-! ### Lemmas about decimal printing and parsing -/

theorem digit_char_toNat (k : Nat) (h : k < 10) : (Char.ofNat (48 + k)).toNat = 48 + k := by
  interval_cases k <;> decide

theorem digit_char_is_digit (k : Nat) (h : k < 10) :
    '0' ≤ Char.ofNat (48 + k) ∧ Char.ofNat (48 + k) ≤ '9' := by
  interval_cases k <;> exact ⟨by decide, by decide⟩

theorem digit_char_ne (k : Nat) (h : k < 10) :
    Char.ofNat (48 + k) ≠ '.' ∧ Char.ofNat (48 + k) ≠ '/' ∧
    Char.ofNat (48 + k) ≠ '+' ∧ Char.ofNat (48 + k) ≠ '*' ∧
    Char.ofNat (48 + k) ≠ '?' := by
  interval_cases k <;> exact ⟨by decide, by decide, by decide, by decide, by decide⟩

theorem digitVal_digit_char (k : Nat) (h : k < 10) :
    digitVal (Char.ofNat (48 + k)) = some k := by
  unfold digitVal
  rw [if_pos (digit_char_is_digit k h), digit_char_toNat k h]
  congr 1
  omega

theorem natToDigitsAux_irrel (fuel1 : Nat) :
    ∀ fuel2 n acc, n < fuel1 → n < fuel2 →
      natToDigitsAux fuel1 n acc = natToDigitsAux fuel2 n acc := by
  induction fuel1 with
  | zero =>
    intro fuel2 n acc h1 h2
    omega
  | succ f ih =>
    intro fuel2 n acc h1 h2
    cases fuel2 with
    | zero => omega
    | succ g =>
      simp only [natToDigitsAux]
      by_cases hn : n < 10
      · rw [if_pos hn, if_pos hn]
      · rw [if_neg hn, if_neg hn]
        exact ih g (n / 10) _ (by omega) (by omega)

theorem natToDigitsAux_acc (fuel : Nat) :
    ∀ n acc, natToDigitsAux fuel n acc = natToDigitsAux fuel n [] ++ acc := by
  induction fuel with
  | zero =>
    intro n acc
    simp [natToDigitsAux]
  | succ f ih =>
    intro n acc
    simp only [natToDigitsAux]
    by_cases hn : n < 10
    · rw [if_pos hn, if_pos hn]
      rfl
    · rw [if_neg hn, if_neg hn, ih (n / 10) (Char.ofNat (48 + n % 10) :: acc),
        ih (n / 10) [Char.ofNat (48 + n % 10)]]
      simp

theorem natToDigits_unfold (n : Nat) :
    natToDigits n = if n < 10 then [Char.ofNat (48 + n)]
      else natToDigits (n / 10) ++ [Char.ofNat (48 + n % 10)] := by
  unfold natToDigits
  by_cases hn : n < 10
  · rw [if_pos hn]
    simp only [natToDigitsAux, if_pos hn]
  · rw [if_neg hn]
    simp only [natToDigitsAux, if_neg hn]
    rw [natToDigitsAux_acc n (n / 10) [Char.ofNat (48 + n % 10)]]
    congr 1
    exact natToDigitsAux_irrel n (n / 10 + 1) (n / 10) [] (by omega) (by omega)

theorem natToDigits_ne_nil (n : Nat) : natToDigits n ≠ [] := by
  rw [natToDigits_unfold]
  by_cases h : n < 10 <;> simp [h]

theorem natToDigits_mem (n : Nat) :
    ∀ c ∈ natToDigits n, ∃ k, k < 10 ∧ c = Char.ofNat (48 + k) := by
  induction n using Nat.strong_induction_on with
  | _ n ih =>
    rw [natToDigits_unfold]
    by_cases h : n < 10
    · simp only [if_pos h, List.mem_singleton]
      intro c hc
      exact ⟨n, h, hc⟩
    · simp only [if_neg h, List.mem_append, List.mem_singleton]
      intro c hc
      rcases hc with hc | hc
      · exact ih (n / 10) (Nat.div_lt_self (by omega) (by omega)) c hc
      · exact ⟨n % 10, Nat.mod_lt n (by omega), hc⟩

theorem digitsToNatAux_append (acc : Nat) (l1 l2 : List Char) :
    digitsToNatAux acc (l1 ++ l2) =
      match digitsToNatAux acc l1 with
      | none => none
      | some m => digitsToNatAux m l2 := by
  induction l1 generalizing acc with
  | nil => simp [digitsToNatAux]
  | cons c cs ih =>
    simp only [List.cons_append, digitsToNatAux]
    cases digitVal c with
    | none => rfl
    | some d => exact ih (acc * 10 + d)

theorem digitsToNatAux_natToDigits (n acc : Nat) :
    digitsToNatAux acc (natToDigits n) =
      some (acc * 10 ^ (natToDigits n).length + n) := by
  induction n using Nat.strong_induction_on generalizing acc with
  | _ n ih =>
    by_cases h : n < 10
    · rw [natToDigits_unfold, if_pos h]
      simp only [digitsToNatAux, digitVal_digit_char n h, List.length_singleton, pow_one]
    · rw [natToDigits_unfold, if_neg h]
      rw [digitsToNatAux_append]
      rw [ih (n / 10) (Nat.div_lt_self (by omega) (by omega)) acc]
      have hm : n % 10 < 10 := Nat.mod_lt n (by omega)
      simp only [digitsToNatAux, digitVal_digit_char (n % 10) hm]
      rw [List.length_append, List.length_singleton]
      have h2 : n / 10 * 10 + n % 10 = n := by omega
      congr 1
      calc (acc * 10 ^ (natToDigits (n / 10)).length + n / 10) * 10 + n % 10
          = acc * (10 ^ (natToDigits (n / 10)).length * 10) + (n / 10 * 10 + n % 10) := by
            ring
        _ = acc * 10 ^ ((natToDigits (n / 10)).length + 1) + n := by rw [h2, pow_succ]

theorem digitsToNat_natToDigits (n : Nat) : digitsToNat (natToDigits n) = some n := by
  cases hd : natToDigits n with
  | nil => exact absurd hd (natToDigits_ne_nil n)
  | cons c cs =>
    have h1 : digitsToNat (c :: cs) = digitsToNatAux 0 (c :: cs) := rfl
    rw [h1, ← hd, digitsToNatAux_natToDigits n 0]
    simp

theorem natToDigits_head_ne_plus (n : Nat) : (natToDigits n).head? ≠ some '+' := by
  cases hd : natToDigits n with
  | nil => simp
  | cons c cs =>
    have hc : c ∈ natToDigits n := by
      rw [hd]
      exact List.mem_cons_self c cs
    obtain ⟨k, hk, rfl⟩ := natToDigits_mem n c hc
    simp only [List.head?_cons, Option.some.injEq, ne_eq]
    exact (digit_char_ne k hk).2.2.1

theorem parseU32_natToDigits (n : Nat) (h : n < 4294967296) :
    parseU32 (natToDigits n) = some n := by
  unfold parseU32
  rw [if_neg (natToDigits_head_ne_plus n), digitsToNat_natToDigits n]
  simp [h]

theorem natToDigits_no_dot (n : Nat) : '.' ∉ natToDigits n := by
  intro hc
  obtain ⟨k, hk, he⟩ := natToDigits_mem n '.' hc
  exact (digit_char_ne k hk).1 he.symm

theorem natToDigits_no_slash (n : Nat) : '/' ∉ natToDigits n := by
  intro hc
  obtain ⟨k, hk, he⟩ := natToDigits_mem n '/' hc
  exact (digit_char_ne k hk).2.1 he.symm

/-! ### Lemmas about glob matching -/

theorem globMatch_nil_left (s : List Char) : globMatch [] s = s.isEmpty := rfl

theorem globMatch_star_iff (ps s : List Char) :
    globMatch ('*' :: ps) s = true ↔
      ∃ i, i ≤ s.length ∧ globMatch ps (s.drop i) = true := by
  have h1 : globMatch ('*' :: ps) s =
      (List.range (s.length + 1)).any (fun i => globMatch ps (s.drop i)) := by
    simp [globMatch]
  rw [h1, List.any_eq_true]
  constructor
  · rintro ⟨i, hi, h⟩
    rw [List.mem_range] at hi
    exact ⟨i, by omega, h⟩
  · rintro ⟨i, hi, h⟩
    exact ⟨i, List.mem_range.2 (by omega), h⟩

theorem globMatch_qmark_cons (ps : List Char) (c : Char) (cs : List Char) :
    globMatch ('?' :: ps) (c :: cs) = globMatch ps cs := by
  simp [globMatch]

theorem globMatch_lit_cons (p : Char) (hp1 : p ≠ '*') (hp2 : p ≠ '?')
    (ps : List Char) (c : Char) (cs : List Char) :
    globMatch (p :: ps) (c :: cs) = (decide (p = c) && globMatch ps cs) := by
  simp [globMatch, hp1, hp2]

theorem globMatch_lit_nil (p : Char) (hp1 : p ≠ '*') (ps : List Char) :
    globMatch (p :: ps) [] = false := by
  simp [globMatch, hp1]

theorem globMatch_star_all (s : List Char) : globMatch ['*'] s = true := by
  rw [globMatch_star_iff]
  refine ⟨s.length, le_rfl, ?_⟩
  rw [List.drop_length]
  rfl

theorem globMatch_star_intro (ps s : List Char) (h : globMatch ps s = true) :
    globMatch ('*' :: ps) s = true := by
  rw [globMatch_star_iff]
  exact ⟨0, Nat.zero_le _, by simpa using h⟩

theorem globMatch_append_left (l p s : List Char) (h : globMatch p s = true) :
    globMatch (l ++ p) (l ++ s) = true := by
  induction l with
  | nil => simpa using h
  | cons c cs ih =>
    by_cases hc1 : c = '*'
    · subst hc1
      rw [List.cons_append, List.cons_append, globMatch_star_iff]
      refine ⟨1, by simp, ?_⟩
      simpa using ih
    · by_cases hc2 : c = '?'
      · subst hc2
        rw [List.cons_append, List.cons_append, globMatch_qmark_cons]
        exact ih
      · rw [List.cons_append, List.cons_append, globMatch_lit_cons c hc1 hc2]
        simp [ih]

theorem globMatch_lit_decomp (l : List Char) (hl : ∀ c ∈ l, c ≠ '*' ∧ c ≠ '?')
    (p s : List Char) (h : globMatch (l ++ p) s = true) :
    ∃ s1, s = l ++ s1 ∧ globMatch p s1 = true := by
  induction l generalizing s with
  | nil => exact ⟨s, rfl, by simpa using h⟩
  | cons c cs ih =>
    obtain ⟨hc1, hc2⟩ := hl c (List.mem_cons_self c cs)
    cases s with
    | nil =>
      rw [List.cons_append, globMatch_lit_nil c hc1] at h
      exact absurd h (by simp)
    | cons d ds =>
      rw [List.cons_append, globMatch_lit_cons c hc1 hc2] at h
      simp only [Bool.and_eq_true, decide_eq_true_eq] at h
      obtain ⟨rfl, h2⟩ := h
      obtain ⟨s1, rfl, h3⟩ := ih (fun x hx => hl x (List.mem_cons_of_mem c hx)) ds h2
      exact ⟨s1, rfl, h3⟩

/-! ### Lemmas about the maximum fold of next_backup_version -/

theorem foldl_max_le_iff (f : String → Nat) (l : List String) (a m : Nat) :
    l.foldl (fun acc x => max acc (f x)) a ≤ m ↔ a ≤ m ∧ ∀ x ∈ l, f x ≤ m := by
  induction l generalizing a with
  | nil => simp
  | cons x xs ih =>
    simp only [List.foldl_cons, List.mem_cons]
    rw [ih]
    constructor
    · rintro ⟨h1, h2⟩
      refine ⟨?_, ?_⟩
      · omega
      · intro y hy
        rcases hy with rfl | hy
        · omega
        · exact h2 y hy
    · rintro ⟨h1, h2⟩
      refine ⟨?_, fun y hy => h2 y (Or.inr hy)⟩
      have := h2 x (Or.inl rfl)
      omega

theorem le_foldl_max_init (f : String → Nat) (l : List String) (a : Nat) :
    a ≤ l.foldl (fun acc x => max acc (f x)) a :=
  ((foldl_max_le_iff f l a _).1 le_rfl).1

theorem le_foldl_max_mem (f : String → Nat) (l : List String) (a : Nat)
    (x : String) (hx : x ∈ l) : f x ≤ l.foldl (fun acc x => max acc (f x)) a :=
  ((foldl_max_le_iff f l a _).1 le_rfl).2 x hx

theorem foldl_max_attained (f : String → Nat) (l : List String) (a : Nat) :
    l.foldl (fun acc x => max acc (f x)) a = a ∨
    ∃ x ∈ l, l.foldl (fun acc x => max acc (f x)) a = f x := by
  induction l generalizing a with
  | nil => simp
  | cons x xs ih =>
    simp only [List.foldl_cons]
    rcases ih (max a (f x)) with h | ⟨y, hy, h⟩
    · rw [h]
      rcases max_choice a (f x) with hm | hm
      · exact Or.inl hm
      · exact Or.inr ⟨x, List.mem_cons_self x xs, hm⟩
    · exact Or.inr ⟨y, List.mem_cons_of_mem x hy, h⟩

/-! ### Lemmas about the pruner sort -/

theorem sortedInsert_perm (x : String) (l : List String) :
    (sortedInsert x l).Perm (x :: l) := by
  induction l with
  | nil => exact List.Perm.refl _
  | cons y ys ih =>
    unfold sortedInsert
    by_cases h : verLe y x
    · rw [if_pos h]
      exact (ih.cons y).trans (List.Perm.swap x y ys)
    · rw [if_neg h]

theorem sortByVersion_aux_perm (l acc : List String) :
    (l.foldl (fun acc x => sortedInsert x acc) acc).Perm (acc ++ l) := by
  induction l generalizing acc with
  | nil => simp
  | cons x xs ih =>
    simp only [List.foldl_cons]
    refine (ih (sortedInsert x acc)).trans ?_
    have h1 : (sortedInsert x acc ++ xs).Perm ((x :: acc) ++ xs) :=
      (sortedInsert_perm x acc).append_right xs
    refine h1.trans ?_
    simpa using List.perm_middle.symm

theorem sortByVersion_perm (l : List String) : (sortByVersion l).Perm l := by
  simpa using sortByVersion_aux_perm l []

theorem mem_sortByVersion (l : List String) (x : String) :
    x ∈ sortByVersion l ↔ x ∈ l :=
  (sortByVersion_perm l).mem_iff

theorem length_sortByVersion (l : List String) :
    (sortByVersion l).length = l.length :=
  (sortByVersion_perm l).length_eq

theorem sortedInsert_pairwise (x : String) (l : List String)
    (h : l.Pairwise (fun a b => verVal a ≤ verVal b)) :
    (sortedInsert x l).Pairwise (fun a b => verVal a ≤ verVal b) := by
  induction l with
  | nil => simp [sortedInsert]
  | cons y ys ih =>
    unfold sortedInsert
    rw [List.pairwise_cons] at h
    obtain ⟨hy, hys⟩ := h
    by_cases hle : verLe y x
    · rw [if_pos hle]
      rw [List.pairwise_cons]
      refine ⟨?_, ih hys⟩
      intro z hz
      have hz2 := (sortedInsert_perm x ys).mem_iff.1 hz
      rcases List.mem_cons.1 hz2 with rfl | hz3
      · exact of_decide_eq_true hle
      · exact hy z hz3
    · rw [if_neg hle]
      rw [List.pairwise_cons]
      have hxy : verVal x ≤ verVal y := by
        have := of_decide_eq_false (Bool.of_not_eq_true hle)
        unfold verLe at hle
        simp at hle
        omega
      refine ⟨?_, List.pairwise_cons.2 ⟨hy, hys⟩⟩
      intro z hz
      rcases List.mem_cons.1 hz with rfl | hz2
      · exact hxy
      · exact le_trans hxy (hy z hz2)

theorem sortByVersion_aux_pairwise (l acc : List String)
    (h : acc.Pairwise (fun a b => verVal a ≤ verVal b)) :
    (l.foldl (fun acc x => sortedInsert x acc) acc).Pairwise
      (fun a b => verVal a ≤ verVal b) := by
  induction l generalizing acc with
  | nil => exact h
  | cons x xs ih =>
    simp only [List.foldl_cons]
    exact ih (sortedInsert x acc) (sortedInsert_pairwise x acc h)

theorem sortByVersion_pairwise (l : List String) :
    (sortByVersion l).Pairwise (fun a b => verVal a ≤ verVal b) :=
  sortByVersion_aux_pairwise l [] (List.Pairwise.nil)

/-! ### Lemmas about the pruner multimap -/

/-- Every value stored under a key of the multimap strips to that key. -/
def mmWF (m : List (String × List String)) : Prop :=
  ∀ kg ∈ m, ∀ p ∈ kg.2,
    strip_version_suffix_from_backed_up_file_path p = some kg.1

theorem insertMM_wf (k v : String) (m : List (String × List String))
    (hm : mmWF m) (hv : strip_version_suffix_from_backed_up_file_path v = some k) :
    mmWF (insertMM k v m) := by
  induction m with
  | nil =>
    intro kg hkg p hp
    simp only [insertMM, List.mem_singleton] at hkg
    subst hkg
    simp only [List.mem_singleton] at hp
    subst hp
    exact hv
  | cons kg0 rest ih =>
    obtain ⟨k0, vs0⟩ := kg0
    unfold insertMM
    by_cases hk : k0 = k
    · rw [if_pos hk]
      intro kg hkg p hp
      rcases List.mem_cons.1 hkg with rfl | hkg2
      · simp only [List.mem_append, List.mem_singleton] at hp
        rcases hp with hp | rfl
        · exact hm (k0, vs0) (List.mem_cons_self _ _) p hp
        · rw [hv, hk]
      · exact hm kg (List.mem_cons_of_mem _ hkg2) p hp
    · rw [if_neg hk]
      intro kg hkg p hp
      rcases List.mem_cons.1 hkg with rfl | hkg2
      · exact hm (k0, vs0) (List.mem_cons_self _ _) p hp
      · exact ih (fun kg2 hkg3 => hm kg2 (List.mem_cons_of_mem _ hkg3)) kg hkg2 p hp

theorem groupByStripped_wf (l : List String) (acc gs : List (String × List String))
    (h : groupByStripped acc l = .ok gs) (hacc : mmWF acc) : mmWF gs := by
  induction l generalizing acc with
  | nil =>
    simp only [groupByStripped] at h
    cases h
    exact hacc
  | cons p rest ih =>
    simp only [groupByStripped] at h
    cases hst : strip_version_suffix_from_backed_up_file_path p with
    | none => rw [hst] at h; exact Except.noConfusion h
    | some sp =>
      rw [hst] at h
      exact ih (insertMM sp p acc) h (insertMM_wf sp p acc hacc hst)

/-- Keys of the multimap. -/
def mmKeys (m : List (String × List String)) : List String := m.map (fun kg => kg.1)

theorem insertMM_keys (k v : String) (m : List (String × List String)) :
    mmKeys (insertMM k v m) = if k ∈ mmKeys m then mmKeys m else mmKeys m ++ [k] := by
  induction m with
  | nil => simp [insertMM, mmKeys]
  | cons kg0 rest ih =>
    obtain ⟨k0, vs0⟩ := kg0
    by_cases hk : k0 = k
    · subst hk
      simp [insertMM, mmKeys]
    · have hne : (k ∈ mmKeys ((k0, vs0) :: rest)) ↔ (k ∈ mmKeys rest) := by
        simp only [mmKeys, List.map_cons, List.mem_cons]
        constructor
        · rintro (rfl | hh)
          · exact absurd rfl hk
          · exact hh
        · exact Or.inr
      have hstep : insertMM k v ((k0, vs0) :: rest) = (k0, vs0) :: insertMM k v rest := by
        simp [insertMM, hk]
      rw [hstep]
      have hmk : mmKeys ((k0, vs0) :: insertMM k v rest) =
          k0 :: mmKeys (insertMM k v rest) := rfl
      rw [hmk, ih]
      by_cases hmem : k ∈ mmKeys rest
      · rw [if_pos hmem, if_pos (hne.2 hmem)]
        rfl
      · rw [if_neg hmem, if_neg (fun hh => hmem (hne.1 hh))]
        simp [mmKeys]

theorem insertMM_keys_nodup (k v : String) (m : List (String × List String))
    (h : (mmKeys m).Nodup) : (mmKeys (insertMM k v m)).Nodup := by
  rw [insertMM_keys]
  by_cases hk : k ∈ mmKeys m
  · rw [if_pos hk]
    exact h
  · rw [if_neg hk]
    rw [List.nodup_append]
    refine ⟨h, List.nodup_singleton k, ?_⟩
    intro x hx hb
    simp only [List.mem_singleton] at hb
    subst hb
    exact hk hx

theorem groupByStripped_keys_nodup (l : List String)
    (acc gs : List (String × List String)) (h : groupByStripped acc l = .ok gs)
    (hacc : (mmKeys acc).Nodup) : (mmKeys gs).Nodup := by
  induction l generalizing acc with
  | nil =>
    simp only [groupByStripped] at h
    cases h
    exact hacc
  | cons p rest ih =>
    simp only [groupByStripped] at h
    cases hst : strip_version_suffix_from_backed_up_file_path p with
    | none => rw [hst] at h; exact Except.noConfusion h
    | some sp =>
      rw [hst] at h
      exact ih (insertMM sp p acc) h (insertMM_keys_nodup sp p acc hacc)

/-- Concatenation of all groups of the multimap. -/
def mmFlat (m : List (String × List String)) : List String := m.flatMap (fun kg => kg.2)

theorem insertMM_flat_perm (k v : String) (m : List (String × List String)) :
    (mmFlat (insertMM k v m)).Perm (mmFlat m ++ [v]) := by
  induction m with
  | nil => simp [insertMM, mmFlat]
  | cons kg0 rest ih =>
    obtain ⟨k0, vs0⟩ := kg0
    unfold insertMM
    by_cases hk : k0 = k
    · rw [if_pos hk]
      simp only [mmFlat, List.flatMap_cons]
      rw [List.append_assoc, List.append_assoc]
      exact List.Perm.append_left vs0 List.perm_append_comm
    · rw [if_neg hk]
      simp only [mmFlat, List.flatMap_cons] at ih ⊢
      rw [List.append_assoc]
      exact List.Perm.append_left vs0 ih

theorem groupByStripped_flat_perm (l : List String)
    (acc gs : List (String × List String)) (h : groupByStripped acc l = .ok gs) :
    (mmFlat gs).Perm (mmFlat acc ++ l) := by
  induction l generalizing acc with
  | nil =>
    simp only [groupByStripped] at h
    cases h
    simp
  | cons p rest ih =>
    simp only [groupByStripped] at h
    cases hst : strip_version_suffix_from_backed_up_file_path p with
    | none => rw [hst] at h; exact Except.noConfusion h
    | some sp =>
      rw [hst] at h
      refine (ih (insertMM sp p acc) h).trans ?_
      have h1 := (insertMM_flat_perm sp p acc).append_right rest
      refine h1.trans ?_
      rw [List.append_assoc]
      exact List.Perm.refl _

theorem mm_group_sublist_flat (m : List (String × List String)) (kg : String × List String)
    (h : kg ∈ m) : kg.2.Sublist (mmFlat m) := by
  induction m with
  | nil => simp at h
  | cons kg0 rest ih =>
    rcases List.mem_cons.1 h with rfl | h2
    · simp only [mmFlat, List.flatMap_cons]
      exact List.sublist_append_left kg.2 (mmFlat rest)
    · simp only [mmFlat, List.flatMap_cons]
      exact (ih h2).trans (List.sublist_append_right kg0.2 (mmFlat rest))

theorem mm_mem_of_mem_group (m : List (String × List String)) (kg : String × List String)
    (hkg : kg ∈ m) (p : String) (hp : p ∈ kg.2) : p ∈ mmFlat m :=
  (mm_group_sublist_flat m kg hkg).mem hp

theorem mm_key_entry_unique (m : List (String × List String))
    (hnd : (mmKeys m).Nodup) (k : String) (g1 g2 : List String)
    (h1 : (k, g1) ∈ m) (h2 : (k, g2) ∈ m) : g1 = g2 := by
  induction m with
  | nil => simp at h1
  | cons kg0 rest ih =>
    obtain ⟨k0, g0⟩ := kg0
    simp only [mmKeys, List.map_cons, List.nodup_cons] at hnd
    obtain ⟨hk0, hrest⟩ := hnd
    rcases List.mem_cons.1 h1 with he1 | h1r
    · rcases List.mem_cons.1 h2 with he2 | h2r
      · injection he1 with hk1 hg1
        injection he2 with hk2 hg2
        rw [hg1, hg2]
      · injection he1 with hk1 _
        exfalso
        exact hk0 (hk1 ▸ List.mem_map.2 ⟨(k, g2), h2r, rfl⟩)
    · rcases List.mem_cons.1 h2 with he2 | h2r
      · injection he2 with hk2 _
        exfalso
        exact hk0 (hk2 ▸ List.mem_map.2 ⟨(k, g1), h1r, rfl⟩)
      · exact ih hrest h1r h2r

/-! ### Membership lemmas for the filesystem listings -/

theorem contains_iff_mem (l : List String) (a : String) : l.contains a = true ↔ a ∈ l := by
  induction l with
  | nil => simp
  | cons x xs ih => simp [ih]

theorem mem_globDir (fs : FS) (dir filePat p : String) :
    p ∈ globDir fs dir filePat ↔
      ∃ e ∈ fs, e.path = p ∧ parentStr p = dir ∧
        globMatch filePat.data (fileNameStr p).data = true := by
  constructor
  · intro h
    simp only [globDir, List.mem_map] at h
    obtain ⟨e, he, rfl⟩ := h
    rw [List.mem_filter] at he
    obtain ⟨he1, he2⟩ := he
    simp only [Bool.and_eq_true, decide_eq_true_eq] at he2
    exact ⟨e, he1, rfl, he2.1, he2.2⟩
  · rintro ⟨e, he, rfl, h1, h2⟩
    simp only [globDir, List.mem_map]
    refine ⟨e, List.mem_filter.2 ⟨he, ?_⟩, rfl⟩
    simp [h1, h2]

theorem mem_get_backed_up_files (settings : Settings) (fs : FS) (p : String) :
    p ∈ get_backed_up_files settings fs ↔
      ∃ bp ∈ settings.backup_patterns,
        p ∈ globDir fs (joinPath settings.backup_dest_path (fileNameStr bp.source_dir))
            (bp.filename_pattern ++ ".*") ∧
        (get_backed_up_version_number p).isSome := by
  simp [get_backed_up_files, List.mem_flatMap, List.mem_filter]

/-- Every path listed by get_backed_up_files has a parsable version number: the
listing filters on exactly that condition. -/
theorem gbf_version_isSome (settings : Settings) (fs : FS) (p : String)
    (h : p ∈ get_backed_up_files settings fs) :
    (get_backed_up_version_number p).isSome := by
  obtain ⟨bp, -, -, hv⟩ := (mem_get_backed_up_files settings fs p).1 h
  exact hv

theorem gbf_exists_entry (settings : Settings) (fs : FS) (p : String)
    (h : p ∈ get_backed_up_files settings fs) : ∃ e ∈ fs, e.path = p := by
  obtain ⟨bp, -, hmem, -⟩ := (mem_get_backed_up_files settings fs p).1 h
  obtain ⟨e, he, hp, -, -⟩ := (mem_globDir fs _ _ p).1 hmem
  exact ⟨e, he, hp⟩

/-! ### Lemmas about version suffixes and stripping -/

theorem strip_eq_none_iff (p : String) :
    strip_version_suffix_from_backed_up_file_path p = none ↔ '.' ∉ p.data := by
  unfold strip_version_suffix_from_backed_up_file_path
  cases h : splitAtLastChar '.' p.data with
  | none => simpa using (splitAtLastChar_eq_none_iff '.' p.data).1 h
  | some v =>
    obtain ⟨pre, suf⟩ := v
    obtain ⟨he, -⟩ := splitAtLastChar_eq_some '.' p.data pre suf h
    simp only
    constructor
    · intro hc
      exact absurd hc (by simp)
    · intro hc
      exfalso
      apply hc
      rw [he]
      simp

theorem strip_eq_some_decomp (p k : String)
    (h : strip_version_suffix_from_backed_up_file_path p = some k) :
    ∃ suf : List Char, p.data = k.data ++ '.' :: suf ∧ '.' ∉ suf := by
  unfold strip_version_suffix_from_backed_up_file_path at h
  cases hs : splitAtLastChar '.' p.data with
  | none => rw [hs] at h; exact Option.noConfusion h
  | some v =>
    obtain ⟨pre, suf⟩ := v
    rw [hs] at h
    simp only [Option.some.injEq] at h
    obtain ⟨he, hns⟩ := splitAtLastChar_eq_some '.' p.data pre suf hs
    refine ⟨suf, ?_, hns⟩
    rw [he, ← h]

theorem fileName_chars_mem (s : String) (c : Char) (h : c ∈ (fileNameStr s).data) :
    c ∈ s.data := by
  unfold fileNameStr at h
  cases hs : splitAtLastChar '/' s.data with
  | none => rw [hs] at h; exact h
  | some v =>
    obtain ⟨pre, f⟩ := v
    rw [hs] at h
    obtain ⟨he, -⟩ := splitAtLastChar_eq_some '/' s.data pre f hs
    rw [he]
    simp only [string_data_mk] at h
    simp [h]

theorem version_isSome_dot_in_fileName (p : String)
    (h : (get_backed_up_version_number p).isSome) : '.' ∈ (fileNameStr p).data := by
  unfold get_backed_up_version_number at h
  cases hs : splitAtLastChar '.' (fileNameStr p).data with
  | none => rw [hs] at h; simp at h
  | some v =>
    by_contra hn
    rw [(splitAtLastChar_eq_none_iff '.' (fileNameStr p).data).2 hn] at hs
    exact Option.noConfusion hs

theorem strip_isSome_of_version_isSome (p : String)
    (h : (get_backed_up_version_number p).isSome) :
    (strip_version_suffix_from_backed_up_file_path p).isSome := by
  have hdot : '.' ∈ p.data :=
    fileName_chars_mem p '.' (version_isSome_dot_in_fileName p h)
  cases hs : strip_version_suffix_from_backed_up_file_path p with
  | none => exact absurd hdot ((strip_eq_none_iff p).1 hs)
  | some k => rfl

/-- Structure of a path inside a pruner group: a path with a parsable version
number that strips to key k decomposes as k, a dot, and a dot-free slash-free
suffix; its parent equals the parent of k and its filename is the filename of k
extended by the dot and the suffix. -/
theorem group_member_decomp (p k : String)
    (hstrip : strip_version_suffix_from_backed_up_file_path p = some k)
    (hver : (get_backed_up_version_number p).isSome) :
    ∃ suf : List Char, p.data = k.data ++ '.' :: suf ∧ '.' ∉ suf ∧ '/' ∉ suf ∧
      parentStr p = parentStr k ∧
      (fileNameStr p).data = (fileNameStr k).data ++ '.' :: suf := by
  obtain ⟨suf, he, hnd⟩ := strip_eq_some_decomp p k hstrip
  have hns : '/' ∉ suf := by
    intro hsl
    have hsplit : ∃ a b, suf = a ++ '/' :: b ∧ '/' ∉ b := by
      cases hs2 : splitAtLastChar '/' suf with
      | none => exact absurd hsl ((splitAtLastChar_eq_none_iff '/' suf).1 hs2)
      | some v =>
        obtain ⟨a, b⟩ := v
        obtain ⟨he2, hnb⟩ := splitAtLastChar_eq_some '/' suf a b hs2
        exact ⟨a, b, he2, hnb⟩
    obtain ⟨a, b, rfl, hnb⟩ := hsplit
    have hfile : (fileNameStr p).data = b := by
      unfold fileNameStr
      have : p.data = (k.data ++ '.' :: a) ++ '/' :: b := by
        rw [he]
        simp
      rw [this, splitAtLastChar_append_of_not_mem '/' (k.data ++ '.' :: a) b hnb]
    have hdot : '.' ∈ (fileNameStr p).data := version_isSome_dot_in_fileName p hver
    rw [hfile] at hdot
    have : '.' ∈ a ++ '/' :: b := by simp [hdot]
    exact hnd this
  have hnds : '/' ∉ '.' :: suf := by
    intro hh
    rcases List.mem_cons.1 hh with hh | hh
    · exact absurd hh (by decide)
    · exact hns hh
  have hsplitp : splitAtLastChar '/' p.data =
      match splitAtLastChar '/' k.data with
      | none => none
      | some (a, b) => some (a, b ++ '.' :: suf) := by
    rw [he]
    exact splitAtLastChar_append_right '/' k.data ('.' :: suf) hnds
  cases hk : splitAtLastChar '/' k.data with
  | none =>
    have hp2 : splitAtLastChar '/' p.data = none := by
      rw [hsplitp, hk]
    have hpar : parentStr p = parentStr k := by
      unfold parentStr
      rw [hp2, hk]
    have hfn : (fileNameStr p).data = (fileNameStr k).data ++ '.' :: suf := by
      unfold fileNameStr
      rw [hp2, hk]
      exact he
    exact ⟨suf, he, hnd, hns, hpar, hfn⟩
  | some v =>
    obtain ⟨a, b⟩ := v
    have hp2 : splitAtLastChar '/' p.data = some (a, b ++ '.' :: suf) := by
      rw [hsplitp, hk]
    have hpar : parentStr p = parentStr k := by
      unfold parentStr
      rw [hp2, hk]
    have hfn : (fileNameStr p).data = (fileNameStr k).data ++ '.' :: suf := by
      unfold fileNameStr
      rw [hp2, hk]
    exact ⟨suf, he, hnd, hns, hpar, hfn⟩

theorem append_eq_split {α : Type} (l1 l2 a b : List α) (h : l1 ++ a = l2 ++ b)
    (hle : l1.length ≤ l2.length) : ∃ m, l2 = l1 ++ m ∧ a = m ++ b := by
  induction l1 generalizing l2 with
  | nil => exact ⟨l2, rfl, h⟩
  | cons c cs ih =>
    cases l2 with
    | nil => simp at hle
    | cons d ds =>
      simp only [List.cons_append, List.cons.injEq] at h
      obtain ⟨rfl, h2⟩ := h
      simp only [List.length_cons, Nat.add_le_add_iff_right] at hle
      obtain ⟨m, rfl, hm⟩ := ih ds h2 hle
      exact ⟨m, rfl, hm⟩

/-- Two paths of the same pruner group either both match the version glob of a
literal filename or neither does: if p matches filename dot-star and q strips
to the same key with a parsable version, then q sits in the same directory and
also matches. -/
theorem group_members_match (f : String) (hmeta : ∀ c ∈ f.data, c ≠ '*' ∧ c ≠ '?')
    (p q k : String)
    (hp_match : globMatch (f ++ ".*").data (fileNameStr p).data = true)
    (hp_strip : strip_version_suffix_from_backed_up_file_path p = some k)
    (hp_ver : (get_backed_up_version_number p).isSome)
    (hq_strip : strip_version_suffix_from_backed_up_file_path q = some k)
    (hq_ver : (get_backed_up_version_number q).isSome) :
    parentStr q = parentStr p ∧
    globMatch (f ++ ".*").data (fileNameStr q).data = true := by
  obtain ⟨sufp, hep, hndp, hnsp, hparp, hfnp⟩ := group_member_decomp p k hp_strip hp_ver
  obtain ⟨sufq, heq, hndq, hnsq, hparq, hfnq⟩ := group_member_decomp q k hq_strip hq_ver
  have hpat : (f ++ ".*").data = (f.data ++ ['.']) ++ ['*'] := by
    rw [data_append]
    have : ".*".data = ['.', '*'] := by decide
    rw [this]
    simp
  have hmeta2 : ∀ c ∈ f.data ++ ['.'], c ≠ '*' ∧ c ≠ '?' := by
    intro c hc
    rcases List.mem_append.1 hc with hc | hc
    · exact hmeta c hc
    · simp only [List.mem_singleton] at hc
      subst hc
      exact ⟨by decide, by decide⟩
  rw [hpat] at hp_match
  obtain ⟨s1, hs1, -⟩ := globMatch_lit_decomp (f.data ++ ['.']) hmeta2 ['*']
    (fileNameStr p).data hp_match
  have hstar : (fileNameStr k).data ++ '.' :: sufp = f.data ++ '.' :: s1 := by
    rw [hfnp] at hs1
    rw [hs1]
    simp
  have key : ∃ rest, (fileNameStr q).data = f.data ++ '.' :: rest := by
    by_cases hlen : (fileNameStr k).data.length ≤ f.data.length
    · obtain ⟨m, hm1, hm2⟩ := append_eq_split (fileNameStr k).data f.data
        ('.' :: sufp) ('.' :: s1) hstar hlen
      cases m with
      | nil =>
        simp only [List.append_nil] at hm1
        refine ⟨sufq, ?_⟩
        rw [hfnq, hm1]
      | cons c m2 =>
        exfalso
        simp only [List.cons_append, List.cons.injEq] at hm2
        obtain ⟨-, hsufp⟩ := hm2
        apply hndp
        rw [hsufp]
        simp
    · push_neg at hlen
      obtain ⟨m, hm1, hm2⟩ := append_eq_split f.data (fileNameStr k).data
        ('.' :: s1) ('.' :: sufp) hstar.symm (by omega)
      cases m with
      | nil =>
        simp only [List.append_nil] at hm1
        refine ⟨sufq, ?_⟩
        rw [hfnq, hm1]
      | cons c m2 =>
        simp only [List.cons_append, List.cons.injEq] at hm2
        obtain ⟨hc, -⟩ := hm2
        refine ⟨m2 ++ '.' :: sufq, ?_⟩
        rw [hfnq, hm1, ← hc]
        simp
  obtain ⟨rest, hrest⟩ := key
  refine ⟨by rw [hparq, hparp], ?_⟩
  rw [hpat, hrest]
  have hsplit2 : f.data ++ '.' :: rest = (f.data ++ ['.']) ++ rest := by simp
  rw [hsplit2]
  exact globMatch_append_left (f.data ++ ['.']) ['*'] rest (globMatch_star_all rest)

/-! ### Auxiliary facts for the version-ledger refinement -/

theorem foldl_max_getD_eq_filterMap (g : String → Option Nat) (l : List String) :
    ∀ a : Nat, l.foldl (fun acc p => max acc ((g p).getD 0)) a =
      (l.filterMap g).foldl max a := by
  induction l with
  | nil => intro a; rfl
  | cons x xs ih =>
    intro a
    simp only [List.foldl_cons, List.filterMap_cons]
    cases hg : g x with
    | none =>
      simp only [Option.getD_none]
      rw [Nat.max_zero]
      exact ih a
    | some v =>
      simp only [Option.getD_some, List.foldl_cons]
      exact ih (max a v)

theorem foldl_max_elim (xs : List Nat) :
    ∀ x : Nat, xs.foldl max x = xs.max?.elim x (max x) := by
  induction xs with
  | nil => intro x; rfl
  | cons y ys ih =>
    intro x
    simp only [List.foldl_cons, List.max?_cons]
    rw [ih (max x y)]
    cases hm : ys.max? with
    | none => simp
    | some m =>
      simp only [Option.elim]
      exact Nat.max_assoc x y m

theorem foldl_max_zero_eq_max?_getD (m : List Nat) :
    m.foldl max 0 = m.max?.getD 0 := by
  cases m with
  | nil => rfl
  | cons x xs =>
    simp only [List.foldl_cons, List.max?_cons, Nat.zero_max]
    rw [foldl_max_elim xs x]
    cases hm : xs.max? with
    | none => rfl
    | some v => rfl

/-! ### Claim theorems and their witnesses -/

/-- Claim C5 (confirmed).  next_backup_version returns one plus the maximum of
the existing numeric suffixes of the versioned backups globbed for the
filename, or one when no entry with a numeric suffix exists; entries whose
suffix does not parse as a non-negative thirty-two bit integer are ignored (the
source folds them in as zero, which never affects the maximum), not errors. -/
theorem next_backup_version_matches_spec (fs : FS) (backed_up_folder backup_filename : String) :
    next_backup_version fs backed_up_folder backup_filename =
      specNextVersionNumber fs backed_up_folder backup_filename := by
  unfold next_backup_version specNextVersionNumber
  rw [foldl_max_getD_eq_filterMap get_backed_up_version_number _ 0,
    foldl_max_zero_eq_max?_getD]
  cases hm : ((globDir fs backed_up_folder (backup_filename ++ ".*")).filterMap
      get_backed_up_version_number).max? with
  | none => rfl
  | some m => rfl

theorem foldl_keep_last_match (cond : BackupFilePattern → Bool) (l : List BackupFilePattern) :
    ∀ init : Option BackupFilePattern,
      l.foldl (fun acc bp => if cond bp then some bp else acc) init =
        match l.reverse.find? cond with
        | some bp => some bp
        | none => init := by
  induction l with
  | nil => intro init; rfl
  | cons x xs ih =>
    intro init
    simp only [List.foldl_cons, List.reverse_cons]
    rw [ih, List.find?_append]
    cases hf : xs.reverse.find? cond with
    | some bp => rfl
    | none =>
      simp only [Option.or]
      cases hx : cond x with
      | true => simp [List.find?, hx]
      | false => simp [List.find?, hx]

/-- Claim C6 (amended).  When more than one configured pattern matches a live
file, the pattern-search loop of live_file_has_backup keeps overwriting its
result, so the pattern it selects is the last matching pattern in configuration
order, not the first. -/
theorem pattern_resolution_last_match_wins (settings : Settings) (live : String) :
    found_backup_pattern settings live = lastMatchingPattern settings live := by
  unfold found_backup_pattern lastMatchingPattern
  rw [foldl_keep_last_match (matchesLiveFile live) settings.backup_patterns none]
  cases hf : settings.backup_patterns.reverse.find? (matchesLiveFile live) with
  | some bp => rfl
  | none => rfl

/-- Claim C6, counterexample to the claim as stated: with the two patterns
star-dot-db and star-a-dot-db on the same folder, both match the live path
slash-s-slash-a-dot-db, and the loop selects the second (last) pattern while
the specification says the first should win. -/
theorem pattern_resolution_not_first_match :
    found_backup_pattern ⟨[⟨"/s", "*.db"⟩, ⟨"/s", "*a.db"⟩], "/d", 2⟩ "/s/a.db"
      = some ⟨"/s", "*a.db"⟩ ∧
    firstMatchingPattern ⟨[⟨"/s", "*.db"⟩, ⟨"/s", "*a.db"⟩], "/d", 2⟩ "/s/a.db"
      = some ⟨"/s", "*.db"⟩ ∧
    (⟨"/s", "*a.db"⟩ : BackupFilePattern) ≠ ⟨"/s", "*.db"⟩ := by
  exact ⟨rfl, rfl, by decide⟩

/-- Claim C9 (confirmed).  Every path that delete_old_backups groups and sorts
comes from get_backed_up_files, which admits only paths whose version number
parses, so the unwrap calls inside the pruner sort comparator can never panic,
for any destination-tree contents. -/
theorem pruner_comparator_unwrap_safe (settings : Settings) (fs : FS) (p : String)
    (h : p ∈ get_backed_up_files settings fs) :
    (get_backed_up_version_number p).isSome :=
  gbf_version_isSome settings fs p h

theorem pruner_comparator_unwrap_safe_witness :
    ("/d/s/a.db.1" ∈ get_backed_up_files ⟨[⟨"/s", "*.db"⟩], "/d", 2⟩
        [⟨"/d/s/a.db.1", 5, 10⟩]) ∧
    (get_backed_up_version_number "/d/s/a.db.1").isSome :=
  ⟨by decide,
    pruner_comparator_unwrap_safe ⟨[⟨"/s", "*.db"⟩], "/d", 2⟩
      [⟨"/d/s/a.db.1", 5, 10⟩] "/d/s/a.db.1" (by decide)⟩

/-- Claim C10 (confirmed).  strip_version_suffix_from_backed_up_file_path
searches the last dot of the whole path string: it returns none exactly when no
dot occurs anywhere in the path, and on a path whose filename is dot-free while
an ancestor directory name contains a dot it truncates at the directory dot,
returning the same result as stripping the directory alone, not none. -/
theorem strip_version_suffix_uses_last_dot_of_whole_path (p d f : String)
    (hdf : '.' ∉ f.data) (hd : '.' ∈ d.data) :
    (strip_version_suffix_from_backed_up_file_path p = none ↔ '.' ∉ p.data) ∧
    strip_version_suffix_from_backed_up_file_path (joinPath d f) =
      strip_version_suffix_from_backed_up_file_path d ∧
    strip_version_suffix_from_backed_up_file_path (joinPath d f) ≠ none := by
  have hdne : d ≠ "" := by
    intro hh
    subst hh
    exact absurd hd (by decide)
  have hjoin : (joinPath d f).data = d.data ++ '/' :: f.data := join_data d f hdne
  have hno : '.' ∉ '/' :: f.data := by
    intro hh
    rcases List.mem_cons.1 hh with hh | hh
    · exact absurd hh (by decide)
    · exact hdf hh
  have hsplit := splitAtLastChar_append_right '.' d.data ('/' :: f.data) hno
  cases hsd : splitAtLastChar '.' d.data with
  | none => exact absurd hd ((splitAtLastChar_eq_none_iff '.' d.data).1 hsd)
  | some v =>
    obtain ⟨a, b⟩ := v
    rw [hsd] at hsplit
    have heq : strip_version_suffix_from_backed_up_file_path (joinPath d f) =
        strip_version_suffix_from_backed_up_file_path d := by
      unfold strip_version_suffix_from_backed_up_file_path
      rw [hjoin, hsplit, hsd]
    refine ⟨strip_eq_none_iff p, heq, ?_⟩
    rw [heq]
    unfold strip_version_suffix_from_backed_up_file_path
    rw [hsd]
    exact Option.noConfusion

theorem strip_version_suffix_uses_last_dot_witness :
    ('.' ∉ "file".data) ∧ ('.' ∈ "dir.v2".data) ∧
    ((strip_version_suffix_from_backed_up_file_path "x.y" = none ↔ '.' ∉ "x.y".data) ∧
      strip_version_suffix_from_backed_up_file_path (joinPath "dir.v2" "file") =
        strip_version_suffix_from_backed_up_file_path "dir.v2" ∧
      strip_version_suffix_from_backed_up_file_path (joinPath "dir.v2" "file") ≠ none) :=
  ⟨by decide, by decide,
    strip_version_suffix_uses_last_dot_of_whole_path "x.y" "dir.v2" "file"
      (by decide) (by decide)⟩

/-- Running the per-file loop over an appended live-file list first runs the
prefix; a prefix run that ends successfully continues on the remainder from the
filesystem it reached. -/
theorem backupAllLoop_append_ok (settings : Settings) :
    ∀ (l1 : List String) (fs fsMid : FS),
      backupAllLoop settings fs l1 = (.ok (), fsMid) →
      ∀ l2 : List String,
        backupAllLoop settings fs (l1 ++ l2) = backupAllLoop settings fsMid l2 := by
  intro l1
  induction l1 with
  | nil =>
    intro fs fsMid h l2
    have hfs : fs = fsMid := congrArg Prod.snd h
    subst hfs
    rfl
  | cons live restL ih =>
    intro fs fsMid h l2
    show backupAllLoop settings fs (live :: (restL ++ l2)) = backupAllLoop settings fsMid l2
    unfold backupAllLoop at h
    conv_lhs => unfold backupAllLoop
    cases hb : live_file_has_backup settings fs live with
    | error e =>
      rw [hb] at h
      simp at h
    | ok b =>
      rw [hb] at h
      cases b with
      | true => exact ih fs fsMid h l2
      | false =>
        cases hbk : back_up_live_file settings fs live with
        | error e =>
          rw [hbk] at h
          simp at h
        | ok fs1 =>
          rw [hbk] at h
          have h2 : (match delete_old_backups settings fs1 with
              | .error e => ((.error e : Except String Unit), fs1)
              | .ok fs2 => backupAllLoop settings fs2 restL) = (.ok (), fsMid) := h
          show (match delete_old_backups settings fs1 with
              | .error e => ((.error e : Except String Unit), fs1)
              | .ok fs2 => backupAllLoop settings fs2 (restL ++ l2)) =
            backupAllLoop settings fsMid l2
          cases hd : delete_old_backups settings fs1 with
          | error e =>
            rw [hd] at h2
            simp at h2
          | ok fs2 =>
            rw [hd] at h2
            exact ih fs2 fsMid h2 l2

/-- Claim C7 (amended).  backup_all_changed_files aborts the batch at the first
per-file failure, through the question-mark operator, at any batch position:
when the enumerated live files split as processed ++ live :: rest, the
processed prefix runs through the per-file loop successfully reaching the
filesystem fsMid, and on the next file any of the three per-file steps fails --
the duplicate check, the back-up, or the prune -- with error e, the whole batch
returns that single error and its outcome equals the run over
processed ++ [live] alone: the live files after the failing one are never
processed and no aggregate of per-file failures is reported. -/
theorem backup_all_aborts_on_first_failure (settings : Settings) (fs fsMid : FS)
    (processed : List String) (live : String) (rest : List String) (e : String)
    (hlist : get_live_files settings fs = processed ++ live :: rest)
    (hmid : backupAllLoop settings fs processed = (.ok (), fsMid))
    (hfail : live_file_has_backup settings fsMid live = .error e ∨
      (live_file_has_backup settings fsMid live = .ok false ∧
        back_up_live_file settings fsMid live = .error e) ∨
      (∃ fs1, live_file_has_backup settings fsMid live = .ok false ∧
        back_up_live_file settings fsMid live = .ok fs1 ∧
        delete_old_backups settings fs1 = .error e)) :
    (backup_all_changed_files settings fs).1 = .error e ∧
    backup_all_changed_files settings fs =
      backupAllLoop settings fs (processed ++ [live]) := by
  have key : ∀ tail : List String,
      backupAllLoop settings fsMid (live :: tail) =
        backupAllLoop settings fsMid [live] := by
    intro tail
    rcases hfail with herr | ⟨hok, herr⟩ | ⟨fs1, hok, hbk, herr⟩
    · unfold backupAllLoop
      rw [herr]
    · unfold backupAllLoop
      rw [hok, herr]
    · unfold backupAllLoop
      rw [hok, hbk]
      show (match delete_old_backups settings fs1 with
          | .error e' => ((.error e' : Except String Unit), fs1)
          | .ok fs2 => backupAllLoop settings fs2 tail) =
        (match delete_old_backups settings fs1 with
          | .error e' => ((.error e' : Except String Unit), fs1)
          | .ok fs2 => backupAllLoop settings fs2 ([] : List String))
      rw [herr]
  have keyerr : (backupAllLoop settings fsMid [live]).1 = .error e := by
    rcases hfail with herr | ⟨hok, herr⟩ | ⟨fs1, hok, hbk, herr⟩
    · unfold backupAllLoop
      rw [herr]
    · unfold backupAllLoop
      rw [hok, herr]
    · unfold backupAllLoop
      rw [hok, hbk]
      show (match delete_old_backups settings fs1 with
          | .error e' => ((.error e' : Except String Unit), fs1)
          | .ok fs2 => backupAllLoop settings fs2 ([] : List String)).1 = .error e
      rw [herr]
  have hmain : backup_all_changed_files settings fs = backupAllLoop settings fsMid [live] := by
    unfold backup_all_changed_files
    rw [hlist, backupAllLoop_append_ok settings processed fs fsMid hmid (live :: rest),
      key rest]
  refine ⟨?_, ?_⟩
  · rw [hmain]
    exact keyerr
  · rw [hmain, backupAllLoop_append_ok settings processed fs fsMid hmid [live]]

theorem backup_all_aborts_on_first_failure_witness :
    get_live_files ⟨[⟨"/s", "*.txt"⟩, ⟨"/s", "a?.db"⟩], "/d", 2⟩
        [⟨"/s/c.txt", 3, 4⟩, ⟨"/s/ab.db", 5, 10⟩] =
      ["/s/c.txt"] ++ "/s/ab.db" :: [] ∧
    backupAllLoop ⟨[⟨"/s", "*.txt"⟩, ⟨"/s", "a?.db"⟩], "/d", 2⟩
        [⟨"/s/c.txt", 3, 4⟩, ⟨"/s/ab.db", 5, 10⟩] ["/s/c.txt"] =
      (.ok (), [⟨"/d/s/c.txt.1", 3, 4⟩, ⟨"/s/c.txt", 3, 4⟩, ⟨"/s/ab.db", 5, 10⟩]) ∧
    live_file_has_backup ⟨[⟨"/s", "*.txt"⟩, ⟨"/s", "a?.db"⟩], "/d", 2⟩
        [⟨"/d/s/c.txt.1", 3, 4⟩, ⟨"/s/c.txt", 3, 4⟩, ⟨"/s/ab.db", 5, 10⟩] "/s/ab.db" =
      .error "Cannot find backup configuration for changed file /s/ab.db" ∧
    (backup_all_changed_files ⟨[⟨"/s", "*.txt"⟩, ⟨"/s", "a?.db"⟩], "/d", 2⟩
        [⟨"/s/c.txt", 3, 4⟩, ⟨"/s/ab.db", 5, 10⟩]).1 =
      .error "Cannot find backup configuration for changed file /s/ab.db" ∧
    backup_all_changed_files ⟨[⟨"/s", "*.txt"⟩, ⟨"/s", "a?.db"⟩], "/d", 2⟩
        [⟨"/s/c.txt", 3, 4⟩, ⟨"/s/ab.db", 5, 10⟩] =
      backupAllLoop ⟨[⟨"/s", "*.txt"⟩, ⟨"/s", "a?.db"⟩], "/d", 2⟩
        [⟨"/s/c.txt", 3, 4⟩, ⟨"/s/ab.db", 5, 10⟩] (["/s/c.txt"] ++ ["/s/ab.db"]) :=
  ⟨rfl, rfl, rfl,
    backup_all_aborts_on_first_failure ⟨[⟨"/s", "*.txt"⟩, ⟨"/s", "a?.db"⟩], "/d", 2⟩
      [⟨"/s/c.txt", 3, 4⟩, ⟨"/s/ab.db", 5, 10⟩]
      [⟨"/d/s/c.txt.1", 3, 4⟩, ⟨"/s/c.txt", 3, 4⟩, ⟨"/s/ab.db", 5, 10⟩]
      ["/s/c.txt"] "/s/ab.db" []
      "Cannot find backup configuration for changed file /s/ab.db"
      rfl rfl (Or.inl rfl)⟩

/-- Claim C7, counterexample to the claim as stated: the first live file fails
its duplicate check (its pattern does not match the full path, a discrepancy
between the globbing of get_live_files and the matching of
live_file_has_backup), the batch aborts with that single error, and the second
live file, which has no backup and would have been backed up, is left
untouched: the filesystem is returned unchanged instead of the batch
continuing and aggregating failures. -/
theorem backup_all_not_error_aggregating :
    backup_all_changed_files ⟨[⟨"/s", "a?.db"⟩, ⟨"/s", "*.txt"⟩], "/d", 2⟩
        [⟨"/s/ab.db", 5, 10⟩, ⟨"/s/c.txt", 3, 4⟩] =
      (.error "Cannot find backup configuration for changed file /s/ab.db",
        [⟨"/s/ab.db", 5, 10⟩, ⟨"/s/c.txt", 3, 4⟩]) ∧
    live_file_has_backup ⟨[⟨"/s", "a?.db"⟩, ⟨"/s", "*.txt"⟩], "/d", 2⟩
        [⟨"/s/ab.db", 5, 10⟩, ⟨"/s/c.txt", 3, 4⟩] "/s/c.txt" = .ok false := by
  exact ⟨rfl, rfl⟩

/-- Claim C8 (amended).  In restore_backed_up_files only the failures after
live-path resolution are caught per file: when the metadata read of a selected
backup fails, that backup is skipped and the remaining selection is processed;
a live-path resolution failure instead aborts the whole call. -/
theorem restore_skips_file_on_metadata_failure (settings : Settings) (fs : FS)
    (backed source : String) (rest : List String)
    (hres : get_live_file_for_backed_up_file settings backed = .ok source)
    (hmeta : fsFind fs backed = none) :
    restore_backed_up_files settings fs (backed :: rest) =
      restore_backed_up_files settings fs rest := by
  conv_lhs => rw [restore_backed_up_files]
  unfold get_file_metadata
  rw [hres, hmeta]

theorem restore_skips_file_on_metadata_failure_witness :
    get_live_file_for_backed_up_file ⟨[⟨"/s", "*.db"⟩], "/d", 2⟩ "/d/s/a.db.9" =
      .ok "/s/a.db" ∧
    fsFind ([⟨"/d/s/a.db.2", 6, 11⟩] : FS) "/d/s/a.db.9" = none ∧
    restore_backed_up_files ⟨[⟨"/s", "*.db"⟩], "/d", 2⟩ [⟨"/d/s/a.db.2", 6, 11⟩]
        ["/d/s/a.db.9", "/d/s/a.db.2"] =
      restore_backed_up_files ⟨[⟨"/s", "*.db"⟩], "/d", 2⟩ [⟨"/d/s/a.db.2", 6, 11⟩]
        ["/d/s/a.db.2"] :=
  ⟨rfl, rfl,
    restore_skips_file_on_metadata_failure ⟨[⟨"/s", "*.db"⟩], "/d", 2⟩
      [⟨"/d/s/a.db.2", 6, 11⟩] "/d/s/a.db.9" "/s/a.db" ["/d/s/a.db.2"] rfl rfl⟩

/-- Claim C8, counterexample to the claim as stated: the first selected backup
fails live-path resolution (no pattern folder matches), and instead of being
caught and logged with processing continuing, the failure aborts the call: the
second, perfectly restorable selected backup is never restored and the
filesystem is returned unchanged. -/
theorem restore_aborts_on_resolution_failure :
    restore_backed_up_files ⟨[⟨"/s", "*.db"⟩], "/d", 2⟩ [⟨"/d/s/a.db.2", 6, 11⟩]
        ["/d/worlds/z.qqq", "/d/s/a.db.2"] =
      (.error "Failed to find source file for backed up file /d/worlds/z.qqq",
        [⟨"/d/s/a.db.2", 6, 11⟩]) ∧
    get_live_file_for_backed_up_file ⟨[⟨"/s", "*.db"⟩], "/d", 2⟩ "/d/s/a.db.2" =
      .ok "/s/a.db" ∧
    (restore_backed_up_files ⟨[⟨"/s", "*.db"⟩], "/d", 2⟩ [⟨"/d/s/a.db.2", 6, 11⟩]
        ["/d/s/a.db.2"]).2 =
      [⟨"/s/a.db", 6, 11⟩, ⟨"/d/s/a.db.2", 6, 11⟩] := by
  exact ⟨rfl, rfl, rfl⟩

theorem doomedOf_mem_self (cnt : Nat) (g : List String) (p : String)
    (h : p ∈ doomedOf cnt g) : p ∈ g := by
  unfold doomedOf at h
  by_cases hl : cnt < g.length
  · rw [if_pos hl] at h
    exact (mem_sortByVersion g p).1 (List.mem_of_mem_take h)
  · rw [if_neg hl] at h
    simp at h

/-- Claim C2 (amended).  Under a retention count of at least one and a
duplicate-free backed-up listing (overlapping patterns can list one file twice
and then the pruner deletes retained copies, see the counterexample), pruning
removes from each identity group exactly the lowest-version entries beyond the
count: the surviving paths of a group are exactly the drop of its ascending
version sort, their number is the minimum of the retention count and the group
size, and every surviving version number is at least every deleted one. -/
theorem retention_prune_postcondition (settings : Settings) (fs : FS)
    (gs : List (String × List String)) (fs2 : FS)
    (hcnt : 1 ≤ settings.backup_count)
    (hnd : (get_backed_up_files settings fs).Nodup)
    (hg : groupByStripped [] (get_backed_up_files settings fs) = .ok gs)
    (hdel : delete_old_backups settings fs = .ok fs2) :
    ∀ kg ∈ gs,
      ((sortByVersion kg.2).drop (kg.2.length - settings.backup_count)).length =
          min settings.backup_count kg.2.length ∧
      (∀ p ∈ kg.2, ((∃ e ∈ fs2, e.path = p) ↔
          p ∈ (sortByVersion kg.2).drop (kg.2.length - settings.backup_count))) ∧
      (∀ p ∈ (sortByVersion kg.2).drop (kg.2.length - settings.backup_count),
        ∀ q ∈ kg.2,
          q ∉ (sortByVersion kg.2).drop (kg.2.length - settings.backup_count) →
            verVal q ≤ verVal p) := by
  have hfs2 : fs.filter (fun e =>
      !((gs.flatMap (fun kg => doomedOf settings.backup_count kg.2)).contains e.path))
        = fs2 := by
    unfold delete_old_backups at hdel
    rw [hg] at hdel
    simpa using hdel
  have hwf : mmWF gs := by
    refine groupByStripped_wf _ [] gs hg ?_
    intro kg hkg
    simp at hkg
  have hkeys : (mmKeys gs).Nodup := by
    refine groupByStripped_keys_nodup _ [] gs hg ?_
    simp [mmKeys]
  have hflat : (mmFlat gs).Perm (get_backed_up_files settings fs) := by
    have h1 := groupByStripped_flat_perm _ [] gs hg
    simpa [mmFlat] using h1
  have hflatnd : (mmFlat gs).Nodup := hflat.nodup_iff.2 hnd
  intro kg hkg
  obtain ⟨k, g⟩ := kg
  have hgnd : g.Nodup := List.Nodup.sublist (mm_group_sublist_flat gs (k, g) hkg) hflatnd
  have hsrtnd : (sortByVersion g).Nodup := (sortByVersion_perm g).nodup_iff.2 hgnd
  have hsplit : (sortByVersion g).take (g.length - settings.backup_count) ++
      (sortByVersion g).drop (g.length - settings.backup_count) = sortByVersion g :=
    List.take_append_drop _ _
  have hdoomed_iff : ∀ p ∈ g,
      (p ∈ gs.flatMap (fun kg => doomedOf settings.backup_count kg.2) ↔
        p ∈ doomedOf settings.backup_count g) := by
    intro p hp
    constructor
    · intro hmem
      rw [List.mem_flatMap] at hmem
      obtain ⟨kg2, hkg2, hpd⟩ := hmem
      obtain ⟨k2, g2⟩ := kg2
      have hpg2 : p ∈ g2 := doomedOf_mem_self settings.backup_count g2 p hpd
      have hs1 : strip_version_suffix_from_backed_up_file_path p = some k :=
        hwf (k, g) hkg p hp
      have hs2 : strip_version_suffix_from_backed_up_file_path p = some k2 :=
        hwf (k2, g2) hkg2 p hpg2
      have hk : k2 = k := by
        rw [hs1] at hs2
        injection hs2 with hk
        exact hk.symm
      subst hk
      have hgg : g2 = g := mm_key_entry_unique gs hkeys k2 g2 g hkg2 hkg
      rw [hgg] at hpd
      exact hpd
    · intro hmem
      rw [List.mem_flatMap]
      exact ⟨(k, g), hkg, hmem⟩
  have hkept_iff : ∀ p ∈ g, (p ∉ doomedOf settings.backup_count g ↔
      p ∈ (sortByVersion g).drop (g.length - settings.backup_count)) := by
    intro p hp
    have hpsrt : p ∈ sortByVersion g := (mem_sortByVersion g p).2 hp
    by_cases hl : settings.backup_count < g.length
    · have hdo : doomedOf settings.backup_count g =
          (sortByVersion g).take (g.length - settings.backup_count) := by
        unfold doomedOf
        rw [if_pos hl]
      rw [hdo]
      have hdisj := (List.nodup_append.1 (hsplit ▸ hsrtnd)).2.2
      constructor
      · intro hnt
        rcases List.mem_append.1 (hsplit ▸ hpsrt) with h | h
        · exact absurd h hnt
        · exact h
      · intro hdrop ht
        exact hdisj ht hdrop
    · have hdo : doomedOf settings.backup_count g = [] := by
        unfold doomedOf
        rw [if_neg hl]
      have hz : g.length - settings.backup_count = 0 := by omega
      rw [hdo, hz]
      simp [hpsrt]
  have hmem_fs2 : ∀ p ∈ g, ((∃ e ∈ fs2, e.path = p) ↔
      p ∉ doomedOf settings.backup_count g) := by
    intro p hp
    have hpfiles : p ∈ get_backed_up_files settings fs :=
      hflat.mem_iff.1 (mm_mem_of_mem_group gs (k, g) hkg p hp)
    constructor
    · rintro ⟨e, he, rfl⟩
      rw [← hfs2] at he
      rw [List.mem_filter] at he
      obtain ⟨he1, he2⟩ := he
      have hnall : ¬ (gs.flatMap (fun kg => doomedOf settings.backup_count kg.2)).contains
          e.path = true := by
        simpa using he2
      intro hmem
      exact hnall ((contains_iff_mem _ _).2 ((hdoomed_iff e.path hp).2 hmem))
    · intro hnd2
      obtain ⟨e, he, rfl⟩ := gbf_exists_entry settings fs p hpfiles
      refine ⟨e, ?_, rfl⟩
      rw [← hfs2]
      refine List.mem_filter.2 ⟨he, ?_⟩
      rw [Bool.not_eq_true']
      exact Bool.eq_false_iff.2
        (fun hc => hnd2 ((hdoomed_iff e.path hp).1 ((contains_iff_mem _ _).1 hc)))
  refine ⟨?_, ?_, ?_⟩
  · rw [List.length_drop, length_sortByVersion]
    omega
  · intro p hp
    rw [hmem_fs2 p hp]
    exact hkept_iff p hp
  · intro p hp q hq hqn
    have hqsrt : q ∈ sortByVersion g := (mem_sortByVersion g q).2 hq
    have hqtake : q ∈ (sortByVersion g).take (g.length - settings.backup_count) := by
      rcases List.mem_append.1 (hsplit ▸ hqsrt) with h | h
      · exact h
      · exact absurd h hqn
    have hpw := sortByVersion_pairwise g
    rw [← hsplit] at hpw
    exact (List.pairwise_append.1 hpw).2.2 q hqtake p hp

/-- Claim C2, counterexample to the claim as stated: with overlapping patterns
star-dot-db and a-dot-star on the same folder, the single existing backup is
listed under both patterns, its group has apparent size two, and pruning with
retention count one deletes the only version: zero versions remain although
min of the count and the existing count is one. -/
theorem retention_prune_overdeletes_with_overlapping_patterns :
    get_backed_up_files ⟨[⟨"/s", "*.db"⟩, ⟨"/s", "a.*"⟩], "/d", 1⟩
        [⟨"/d/s/a.db.1", 5, 10⟩] = ["/d/s/a.db.1", "/d/s/a.db.1"] ∧
    delete_old_backups ⟨[⟨"/s", "*.db"⟩, ⟨"/s", "a.*"⟩], "/d", 1⟩
        [⟨"/d/s/a.db.1", 5, 10⟩] = .ok [] := by
  exact ⟨rfl, rfl⟩

theorem retention_prune_postcondition_witness :
    (1 ≤ (1 : Nat)) ∧
    (get_backed_up_files ⟨[⟨"/s", "*.db"⟩], "/d", 1⟩
      [⟨"/d/s/a.db.1", 5, 9⟩, ⟨"/d/s/a.db.2", 6, 11⟩, ⟨"/d/s/a.db.3", 7, 12⟩]).Nodup ∧
    groupByStripped [] (get_backed_up_files ⟨[⟨"/s", "*.db"⟩], "/d", 1⟩
        [⟨"/d/s/a.db.1", 5, 9⟩, ⟨"/d/s/a.db.2", 6, 11⟩, ⟨"/d/s/a.db.3", 7, 12⟩]) =
      .ok [("/d/s/a.db", ["/d/s/a.db.1", "/d/s/a.db.2", "/d/s/a.db.3"])] ∧
    delete_old_backups ⟨[⟨"/s", "*.db"⟩], "/d", 1⟩
        [⟨"/d/s/a.db.1", 5, 9⟩, ⟨"/d/s/a.db.2", 6, 11⟩, ⟨"/d/s/a.db.3", 7, 12⟩] =
      .ok [⟨"/d/s/a.db.3", 7, 12⟩] ∧
    (∀ kg ∈ [("/d/s/a.db", ["/d/s/a.db.1", "/d/s/a.db.2", "/d/s/a.db.3"])],
      ((sortByVersion kg.2).drop (kg.2.length - 1)).length = min 1 kg.2.length ∧
      (∀ p ∈ kg.2, ((∃ e ∈ ([⟨"/d/s/a.db.3", 7, 12⟩] : FS), e.path = p) ↔
          p ∈ (sortByVersion kg.2).drop (kg.2.length - 1))) ∧
      (∀ p ∈ (sortByVersion kg.2).drop (kg.2.length - 1),
        ∀ q ∈ kg.2, q ∉ (sortByVersion kg.2).drop (kg.2.length - 1) →
          verVal q ≤ verVal p)) :=
  ⟨le_rfl, by decide, rfl, rfl,
    retention_prune_postcondition ⟨[⟨"/s", "*.db"⟩], "/d", 1⟩
      [⟨"/d/s/a.db.1", 5, 9⟩, ⟨"/d/s/a.db.2", 6, 11⟩, ⟨"/d/s/a.db.3", 7, 12⟩]
      [("/d/s/a.db", ["/d/s/a.db.1", "/d/s/a.db.2", "/d/s/a.db.3"])]
      [⟨"/d/s/a.db.3", 7, 12⟩] le_rfl (by decide) rfl rfl⟩

theorem fsFind_of_mem_nodup (fs : FS) (e : FileEntry) (he : e ∈ fs)
    (hnd : (fs.map (fun x => x.path)).Nodup) : fsFind fs e.path = some e := by
  induction fs with
  | nil => simp at he
  | cons x rest ih =>
    simp only [List.map_cons, List.nodup_cons] at hnd
    obtain ⟨hx, hrest⟩ := hnd
    rcases List.mem_cons.1 he with rfl | he2
    · unfold fsFind
      simp [List.find?_cons]
    · have hne : x.path ≠ e.path := by
        intro hh
        exact hx (hh ▸ List.mem_map.2 ⟨e, he2, rfl⟩)
      unfold fsFind at ih ⊢
      rw [List.find?_cons]
      have : (decide (x.path = e.path)) = false := by
        simpa using hne
      rw [this]
      exact ih he2 hrest

theorem fsFind_isSome_of_mem (fs : FS) (p : String) (h : ∃ e ∈ fs, e.path = p) :
    (fsFind fs p).isSome := by
  obtain ⟨e, he, rfl⟩ := h
  induction fs with
  | nil => simp at he
  | cons x rest ih =>
    unfold fsFind
    rw [List.find?_cons]
    rcases List.mem_cons.1 he with rfl | he2
    · simp
    · cases hx : decide (x.path = e.path) with
      | true => simp
      | false => exact ih he2

theorem fsFind_mem_and_path (fs : FS) (p : String) (e : FileEntry)
    (h : fsFind fs p = some e) : e ∈ fs ∧ e.path = p := by
  unfold fsFind at h
  refine ⟨List.mem_of_find?_eq_some h, ?_⟩
  have := List.find?_some h
  simpa using this

theorem anyVersionMatches_iff (fs : FS) (lsz lmt : Nat) (l : List String)
    (hex : ∀ p ∈ l, (fsFind fs p).isSome) :
    anyVersionMatches fs lsz lmt l = .ok true ↔
      ∃ p ∈ l, ∃ e : FileEntry, fsFind fs p = some e ∧ e.size = lsz ∧ e.mtime = lmt := by
  induction l with
  | nil => simp [anyVersionMatches]
  | cons v rest ih =>
    have hv := hex v (List.mem_cons_self v rest)
    cases hf : fsFind fs v with
    | none => rw [hf] at hv; simp at hv
    | some e =>
      unfold anyVersionMatches get_file_metadata
      rw [hf]
      by_cases hm : e.size = lsz ∧ e.mtime = lmt
      · obtain ⟨hm1, hm2⟩ := hm
        simp only [hm1, hm2]
        constructor
        · intro _
          exact ⟨v, List.mem_cons_self v rest, e, hf, hm1, hm2⟩
        · intro _
          simp
      · have hcond : (decide (e.size = lsz) && decide (e.mtime = lmt)) = false := by
          rcases Decidable.not_and_iff_or_not.1 hm with hh | hh <;> simp [hh]
        simp only [hcond, Bool.false_eq_true, if_false]
        rw [ih (fun p hp => hex p (List.mem_cons_of_mem v hp))]
        constructor
        · rintro ⟨p, hp, e2, hfe2, h1, h2⟩
          exact ⟨p, List.mem_cons_of_mem v hp, e2, hfe2, h1, h2⟩
        · rintro ⟨p, hp, e2, hfe2, h1, h2⟩
          rcases List.mem_cons.1 hp with rfl | hp2
          · rw [hf] at hfe2
            injection hfe2 with he2
            subst he2
            exact absurd ⟨h1, h2⟩ hm
          · exact ⟨p, hp2, e2, hfe2, h1, h2⟩

/-- Claim C3 (amended).  For a live file that exists and resolves to a pattern,
live_file_has_backup answers true exactly when some file in the pattern's
destination folder matching the glob filename-pattern dot-star, whatever its
base filename and whether or not its suffix is numeric, has the same size and
modification timestamp as the live file: the comparison set is the whole
pattern class, not the live file's own identity. -/
theorem duplicate_check_matches_any_pattern_file (settings : Settings) (fs : FS)
    (live : String) (bp : BackupFilePattern) (le : FileEntry)
    (hpat : found_backup_pattern settings live = some bp)
    (hlive : fsFind fs live = some le)
    (hnd : (fs.map (fun e => e.path)).Nodup) :
    live_file_has_backup settings fs live = .ok true ↔
      ∃ e ∈ fs,
        parentStr e.path =
          joinPath settings.backup_dest_path (fileNameStr bp.source_dir) ∧
        globMatch (bp.filename_pattern ++ ".*").data (fileNameStr e.path).data = true ∧
        e.size = le.size ∧ e.mtime = le.mtime := by
  unfold live_file_has_backup
  rw [hpat]
  unfold get_file_metadata
  rw [hlive]
  have hex : ∀ p ∈ get_backed_up_version_paths settings.backup_dest_path bp fs,
      (fsFind fs p).isSome := by
    intro p hp
    unfold get_backed_up_version_paths at hp
    obtain ⟨e, he, rfl, -, -⟩ := (mem_globDir fs _ _ p).1 hp
    exact fsFind_isSome_of_mem fs e.path ⟨e, he, rfl⟩
  rw [anyVersionMatches_iff fs le.size le.mtime _ hex]
  constructor
  · rintro ⟨p, hp, e, hfe, h1, h2⟩
    unfold get_backed_up_version_paths at hp
    obtain ⟨e2, he2, rfl, hpar, hglob⟩ := (mem_globDir fs _ _ p).1 hp
    obtain ⟨hemem, hepath⟩ := fsFind_mem_and_path fs e2.path e hfe
    exact ⟨e, hemem, by rw [hepath]; exact hpar, by rw [hepath]; exact hglob, h1, h2⟩
  · rintro ⟨e, he, hpar, hglob, h1, h2⟩
    refine ⟨e.path, ?_, e, fsFind_of_mem_nodup fs e he hnd, h1, h2⟩
    unfold get_backed_up_version_paths
    exact (mem_globDir fs _ _ e.path).2 ⟨e, he, rfl, hpar, hglob⟩

theorem duplicate_check_matches_any_pattern_file_witness :
    found_backup_pattern ⟨[⟨"/s", "*.db"⟩], "/d", 2⟩ "/s/a.db" =
      some ⟨"/s", "*.db"⟩ ∧
    fsFind ([⟨"/s/a.db", 5, 10⟩, ⟨"/d/s/a.db.1", 5, 10⟩] : FS) "/s/a.db" =
      some ⟨"/s/a.db", 5, 10⟩ ∧
    (([⟨"/s/a.db", 5, 10⟩, ⟨"/d/s/a.db.1", 5, 10⟩] : FS).map
      (fun e => e.path)).Nodup ∧
    (live_file_has_backup ⟨[⟨"/s", "*.db"⟩], "/d", 2⟩
        [⟨"/s/a.db", 5, 10⟩, ⟨"/d/s/a.db.1", 5, 10⟩] "/s/a.db" = .ok true ↔
      ∃ e ∈ ([⟨"/s/a.db", 5, 10⟩, ⟨"/d/s/a.db.1", 5, 10⟩] : FS),
        parentStr e.path =
          joinPath "/d" (fileNameStr (⟨"/s", "*.db"⟩ : BackupFilePattern).source_dir) ∧
        globMatch ((⟨"/s", "*.db"⟩ : BackupFilePattern).filename_pattern ++ ".*").data
          (fileNameStr e.path).data = true ∧
        e.size = 5 ∧ e.mtime = 10) :=
  ⟨rfl, rfl, by decide,
    duplicate_check_matches_any_pattern_file ⟨[⟨"/s", "*.db"⟩], "/d", 2⟩
      [⟨"/s/a.db", 5, 10⟩, ⟨"/d/s/a.db.1", 5, 10⟩] "/s/a.db" ⟨"/s", "*.db"⟩
      ⟨"/s/a.db", 5, 10⟩ rfl rfl (by decide)⟩

/-- Claim C3, counterexample to the claim as stated: the only existing backup
file is a version of the different live file b-dot-db, yet its size and mtime
equal those of the changed live file a-dot-db and live_file_has_backup answers
true, while no versioned backup of the identity of a-dot-db exists at all, so
the specified identity-based equivalence is false. -/
theorem duplicate_check_not_identity_based :
    live_file_has_backup ⟨[⟨"/s", "*.db"⟩], "/d", 2⟩
        [⟨"/s/a.db", 5, 10⟩, ⟨"/d/s/b.db.1", 5, 10⟩] "/s/a.db" = .ok true ∧
    specHasDuplicateBackup ⟨[⟨"/s", "*.db"⟩], "/d", 2⟩
        [⟨"/s/a.db", 5, 10⟩, ⟨"/d/s/b.db.1", 5, 10⟩] "/s/a.db" = false := by
  exact ⟨rfl, rfl⟩

theorem join_ne_empty (p q : String) (hq : q ≠ "") : joinPath p q ≠ "" := by
  by_cases hp : p = ""
  · subst hp
    unfold joinPath
    rw [if_pos rfl]
    exact hq
  · intro hh
    have h1 := (string_eq_empty_iff _).1 hh
    rw [join_data p q hp] at h1
    simp at h1

theorem fileName_empty : fileNameStr "" = "" := rfl

/-- The resolver scan of get_live_file_for_backed_up_file returns the original
live path when every pattern sharing the live folder name has the live source
directory and some such pattern's full glob accepts the live path. -/
theorem findLiveFor_resolves (patterns : List BackupFilePattern) (d f X : String)
    (hfolder : fileNameStr d ≠ "")
    (hwfp : ∀ bp ∈ patterns, bp.filename_pattern ≠ "" ∧ '/' ∉ bp.filename_pattern.data)
    (ha : ∀ bp ∈ patterns, fileNameStr bp.source_dir = fileNameStr d → bp.source_dir = d)
    (hb : ∃ bp ∈ patterns, fileNameStr bp.source_dir = fileNameStr d ∧
      globMatchS (joinPath bp.source_dir bp.filename_pattern) (joinPath d f) = true) :
    findLiveFor (fileNameStr d) f X patterns = .ok (joinPath d f) := by
  induction patterns with
  | nil =>
    obtain ⟨bp, hbp, -, -⟩ := hb
    simp at hbp
  | cons bp rest ih =>
    obtain ⟨hfpne, hfpns⟩ := hwfp bp (List.mem_cons_self bp rest)
    have ihuse : (∃ bp2 ∈ rest, fileNameStr bp2.source_dir = fileNameStr d ∧
        globMatchS (joinPath bp2.source_dir bp2.filename_pattern) (joinPath d f) = true) →
        findLiveFor (fileNameStr d) f X rest = .ok (joinPath d f) := by
      intro hb2
      exact ih (fun bp2 h2 => hwfp bp2 (List.mem_cons_of_mem bp h2))
        (fun bp2 h2 => ha bp2 (List.mem_cons_of_mem bp h2)) hb2
    by_cases hsrc : bp.source_dir = ""
    · have hpar : parentStr (joinPath bp.source_dir bp.filename_pattern) = "" := by
        rw [hsrc]
        unfold joinPath
        rw [if_pos rfl]
        unfold parentStr
        rw [(splitAtLastChar_eq_none_iff '/' bp.filename_pattern.data).2 hfpns]
      have hcondf : fileNameStr (parentStr (joinPath bp.source_dir bp.filename_pattern)) ≠
          fileNameStr d := by
        rw [hpar, fileName_empty]
        exact fun hh => hfolder hh.symm
      unfold findLiveFor
      rw [if_neg hcondf]
      refine ihuse ?_
      obtain ⟨bp0, hbp0, hc0, hg0⟩ := hb
      rcases List.mem_cons.1 hbp0 with rfl | hbp0r
      · exfalso
        rw [hsrc, fileName_empty] at hc0
        exact hfolder hc0.symm
      · exact ⟨bp0, hbp0r, hc0, hg0⟩
    · have hpar : parentStr (joinPath bp.source_dir bp.filename_pattern) =
          bp.source_dir := parent_join _ _ hsrc hfpns
      by_cases hcond : fileNameStr bp.source_dir = fileNameStr d
      · have hsd : bp.source_dir = d := ha bp (List.mem_cons_self bp rest) hcond
        have hcondf : fileNameStr (parentStr (joinPath bp.source_dir bp.filename_pattern)) =
            fileNameStr d := by
          rw [hpar]
          exact hcond
        by_cases hglob : globMatchS (joinPath bp.source_dir bp.filename_pattern)
            (joinPath d f) = true
        · unfold findLiveFor
          rw [if_pos hcondf]
          have hexp : joinPath (parentStr (joinPath bp.source_dir bp.filename_pattern)) f =
              joinPath d f := by
            rw [hpar, hsd]
          rw [hexp, if_pos hglob]
        · unfold findLiveFor
          rw [if_pos hcondf]
          have hexp : joinPath (parentStr (joinPath bp.source_dir bp.filename_pattern)) f =
              joinPath d f := by
            rw [hpar, hsd]
          rw [hexp, if_neg hglob]
          refine ihuse ?_
          obtain ⟨bp0, hbp0, hc0, hg0⟩ := hb
          rcases List.mem_cons.1 hbp0 with rfl | hbp0r
          · exact absurd hg0 hglob
          · exact ⟨bp0, hbp0r, hc0, hg0⟩
      · have hcondf : fileNameStr (parentStr (joinPath bp.source_dir bp.filename_pattern)) ≠
            fileNameStr d := by
          rw [hpar]
          exact hcond
        unfold findLiveFor
        rw [if_neg hcondf]
        refine ihuse ?_
        obtain ⟨bp0, hbp0, hc0, hg0⟩ := hb
        rcases List.mem_cons.1 hbp0 with rfl | hbp0r
        · exact absurd hc0 hcond
        · exact ⟨bp0, hbp0r, hc0, hg0⟩

/-- Claim C4 (amended).  The resolver inverts the backup naming under two side
conditions forced by the counterexample: every configured pattern whose source
folder name equals the live file's folder name must have the live file's exact
source directory (folder basenames must not collide across different source
directories), and some such pattern's full glob must accept the live path.
Then for a live path d slash f, the versioned path that back_up_live_file
publishes, dest slash folder slash f dot version, resolves back to exactly the
live path. -/
theorem backup_restore_roundtrip (settings : Settings) (fs : FS) (d f : String)
    (fs1 : FS) (v : Nat)
    (hfs : '/' ∉ f.data) (hfolder : fileNameStr d ≠ "")
    (hwfp : ∀ bp ∈ settings.backup_patterns,
      bp.filename_pattern ≠ "" ∧ '/' ∉ bp.filename_pattern.data)
    (ha : ∀ bp ∈ settings.backup_patterns,
      fileNameStr bp.source_dir = fileNameStr d → bp.source_dir = d)
    (hb : ∃ bp ∈ settings.backup_patterns,
      fileNameStr bp.source_dir = fileNameStr d ∧
      globMatchS (joinPath bp.source_dir bp.filename_pattern) (joinPath d f) = true)
    (_hcore : back_up_live_file_core settings fs (joinPath d f) = .ok (fs1, v)) :
    get_live_file_for_backed_up_file settings
        (joinPath (joinPath settings.backup_dest_path (fileNameStr d))
          (f ++ "." ++ natRepr v)) =
      .ok (joinPath d f) := by
  clear _hcore
  have hvname_data : (f ++ "." ++ natRepr v).data = f.data ++ '.' :: natToDigits v := by
    rw [data_append, data_append]
    have h1 : ".".data = ['.'] := by decide
    rw [h1]
    simp [natRepr, string_data_mk]
  have hvname_ns : '/' ∉ (f ++ "." ++ natRepr v).data := by
    rw [hvname_data]
    intro hh
    rcases List.mem_append.1 hh with hh | hh
    · exact hfs hh
    · rcases List.mem_cons.1 hh with hh | hh
      · exact absurd hh (by decide)
      · exact natToDigits_no_slash v hh
  have hdf_ne : joinPath settings.backup_dest_path (fileNameStr d) ≠ "" :=
    join_ne_empty _ _ hfolder
  have hXparent : parentStr (joinPath (joinPath settings.backup_dest_path (fileNameStr d))
      (f ++ "." ++ natRepr v)) = joinPath settings.backup_dest_path (fileNameStr d) :=
    parent_join _ _ hdf_ne hvname_ns
  have hXfolderName : fileNameStr (parentStr (joinPath
      (joinPath settings.backup_dest_path (fileNameStr d)) (f ++ "." ++ natRepr v))) =
      fileNameStr d := by
    rw [hXparent]
    exact fileName_join settings.backup_dest_path (fileNameStr d) (fileName_no_slash d)
  have hXdata : (joinPath (joinPath settings.backup_dest_path (fileNameStr d))
      (f ++ "." ++ natRepr v)).data =
      ((joinPath settings.backup_dest_path (fileNameStr d)).data ++ '/' :: f.data) ++
        '.' :: natToDigits v := by
    rw [join_data _ _ hdf_ne, hvname_data]
    simp
  have hsplitX : splitAtLastChar '.' (joinPath
      (joinPath settings.backup_dest_path (fileNameStr d)) (f ++ "." ++ natRepr v)).data =
      some ((joinPath settings.backup_dest_path (fileNameStr d)).data ++ '/' :: f.data,
        natToDigits v) := by
    rw [hXdata]
    exact splitAtLastChar_append_of_not_mem '.' _ _ (natToDigits_no_dot v)
  have hstripX : strip_version_suffix_from_backed_up_file_path (joinPath
      (joinPath settings.backup_dest_path (fileNameStr d)) (f ++ "." ++ natRepr v)) =
      some (String.mk ((joinPath settings.backup_dest_path (fileNameStr d)).data ++
        '/' :: f.data)) := by
    unfold strip_version_suffix_from_backed_up_file_path
    rw [hsplitX]
  have hfn_strip : fileNameStr (String.mk
      ((joinPath settings.backup_dest_path (fileNameStr d)).data ++ '/' :: f.data)) = f := by
    unfold fileNameStr
    rw [string_data_mk, splitAtLastChar_append_of_not_mem '/' _ f.data hfs]
  unfold get_live_file_for_backed_up_file
  simp only [hstripX]
  rw [hfn_strip, hXfolderName]
  exact findLiveFor_resolves settings.backup_patterns d f _ hfolder hwfp ha hb

theorem backup_restore_roundtrip_witness :
    ('/' ∉ "a.db".data) ∧ (fileNameStr "/s" ≠ "") ∧
    back_up_live_file_core ⟨[⟨"/s", "*.db"⟩], "/d", 2⟩ [⟨"/s/a.db", 5, 10⟩]
        (joinPath "/s" "a.db") =
      .ok ([⟨"/d/s/a.db.1", 5, 10⟩, ⟨"/s/a.db", 5, 10⟩], 1) ∧
    get_live_file_for_backed_up_file ⟨[⟨"/s", "*.db"⟩], "/d", 2⟩
        (joinPath (joinPath "/d" (fileNameStr "/s")) ("a.db" ++ "." ++ natRepr 1)) =
      .ok (joinPath "/s" "a.db") :=
  ⟨by decide, by decide, rfl,
    backup_restore_roundtrip ⟨[⟨"/s", "*.db"⟩], "/d", 2⟩ [⟨"/s/a.db", 5, 10⟩]
      "/s" "a.db" [⟨"/d/s/a.db.1", 5, 10⟩, ⟨"/s/a.db", 5, 10⟩] 1
      (by decide) (by decide)
      (by
        intro bp hbp
        simp only [List.mem_singleton] at hbp
        subst hbp
        exact ⟨by decide, by decide⟩)
      (by
        intro bp hbp
        simp only [List.mem_singleton] at hbp
        subst hbp
        intro _
        rfl)
      ⟨⟨"/s", "*.db"⟩, List.mem_singleton.2 rfl, by decide, by decide⟩
      rfl⟩

/-- Claim C4, counterexample to the claim as stated: two configured patterns
have source directories with the same final folder name, worlds; the file
backed up from the second source resolves through the first pattern, because
the resolver only compares folder names, and the round trip returns a path
under the wrong source directory. -/
theorem roundtrip_fails_with_colliding_folder_names :
    back_up_live_file_core ⟨[⟨"/x/worlds", "*.db"⟩, ⟨"/y/worlds", "*.db"⟩], "/d", 2⟩
        [⟨"/y/worlds/a.db", 5, 10⟩] "/y/worlds/a.db" =
      .ok ([⟨"/d/worlds/a.db.1", 5, 10⟩, ⟨"/y/worlds/a.db", 5, 10⟩], 1) ∧
    get_live_file_for_backed_up_file
        ⟨[⟨"/x/worlds", "*.db"⟩, ⟨"/y/worlds", "*.db"⟩], "/d", 2⟩
        "/d/worlds/a.db.1" = .ok "/x/worlds/a.db" ∧
    ("/x/worlds/a.db" : String) ≠ "/y/worlds/a.db" := by
  exact ⟨rfl, rfl, by decide⟩

/-! ### Lemmas for the version-number monotonicity claim -/

theorem mem_fsRemove (fs : FS) (p : String) (e : FileEntry) :
    e ∈ fsRemove fs p ↔ e ∈ fs ∧ e.path ≠ p := by
  unfold fsRemove
  rw [List.mem_filter]
  simp

theorem fsRename_write (fs : FS) (t X : String) (sz mt : Nat) :
    fsRename (fsWrite fs t sz mt) t X =
      ⟨X, sz, mt⟩ :: fsRemove (fsRemove (fsWrite fs t sz mt) t) X := by
  unfold fsRename
  have hfind : (fsWrite fs t sz mt).find? (fun e => e.path = t) = some ⟨t, sz, mt⟩ := by
    unfold fsWrite
    rw [List.find?_cons]
    simp
  rw [hfind]
  rfl

theorem underscore_data (f : String) : ("_" ++ f).data = '_' :: f.data := by
  rw [data_append]
  have h1 : "_".data = ['_'] := by decide
  rw [h1]
  rfl

theorem vname_data (f : String) (v : Nat) :
    (f ++ "." ++ natRepr v).data = f.data ++ '.' :: natToDigits v := by
  rw [data_append, data_append]
  have h1 : ".".data = ['.'] := by decide
  rw [h1]
  simp [natRepr, string_data_mk]

theorem vname_no_slash (f : String) (v : Nat) (hfs : '/' ∉ f.data) :
    '/' ∉ (f ++ "." ++ natRepr v).data := by
  rw [vname_data]
  intro hh
  rcases List.mem_append.1 hh with hh | hh
  · exact hfs hh
  · rcases List.mem_cons.1 hh with hh | hh
    · exact absurd hh (by decide)
    · exact natToDigits_no_slash v hh

/-- A literal filename prefixed with an underscore never matches the version
glob of the filename itself: the glob forces the string to start with the
filename followed by a dot, and counting dots rules that out. -/
theorem underscore_not_version_glob (f : String)
    (hmeta : ∀ c ∈ f.data, c ≠ '*' ∧ c ≠ '?') :
    ¬ globMatch (f ++ ".*").data ("_" ++ f).data = true := by
  intro h
  have hpat : (f ++ ".*").data = (f.data ++ ['.']) ++ ['*'] := by
    rw [data_append]
    have h1 : ".*".data = ['.', '*'] := by decide
    rw [h1]
    simp
  have hmeta2 : ∀ c ∈ f.data ++ ['.'], c ≠ '*' ∧ c ≠ '?' := by
    intro c hc
    rcases List.mem_append.1 hc with hc | hc
    · exact hmeta c hc
    · simp only [List.mem_singleton] at hc
      subst hc
      exact ⟨by decide, by decide⟩
  rw [hpat] at h
  obtain ⟨s1, hs1, -⟩ := globMatch_lit_decomp (f.data ++ ['.']) hmeta2 ['*'] _ h
  rw [underscore_data] at hs1
  have hcount := congrArg (List.count '.') hs1
  simp only [List.count_cons, List.count_append, List.count_singleton,
    List.count_nil] at hcount
  have h1 : ('_' == '.') = false := by decide
  have h2 : ('.' == '.') = true := by decide
  rw [h1, h2] at hcount
  norm_num at hcount
  omega

/-- The versioned name always matches the version glob of its filename. -/
theorem vname_matches_version_glob (f : String) (v : Nat) :
    globMatch (f ++ ".*").data (f ++ "." ++ natRepr v).data = true := by
  have hpat : (f ++ ".*").data = (f.data ++ ['.']) ++ ['*'] := by
    rw [data_append]
    have h1 : ".*".data = ['.', '*'] := by decide
    rw [h1]
    simp
  have hs : (f ++ "." ++ natRepr v).data = (f.data ++ ['.']) ++ natToDigits v := by
    rw [vname_data]
    simp
  rw [hpat, hs]
  exact globMatch_append_left (f.data ++ ['.']) ['*'] (natToDigits v)
    (globMatch_star_all (natToDigits v))

/-- The version number parsed back from the published backup path is the
assigned number, provided it fits in a u32. -/
theorem verVal_backed_up_path (destFolder f : String) (v : Nat)
    (hfs : '/' ∉ f.data) (hv : v < 4294967296) :
    get_backed_up_version_number (joinPath destFolder (f ++ "." ++ natRepr v)) =
      some v := by
  have hfn : fileNameStr (joinPath destFolder (f ++ "." ++ natRepr v)) =
      f ++ "." ++ natRepr v := fileName_join _ _ (vname_no_slash f v hfs)
  unfold get_backed_up_version_number
  rw [hfn, vname_data,
    splitAtLastChar_append_of_not_mem '.' f.data (natToDigits v) (natToDigits_no_dot v)]
  exact parseU32_natToDigits v hv

/-- Unfolding of a successful backup: the live file's entry, the assigned
version and the resulting filesystem. -/
theorem back_up_core_spec (settings : Settings) (fs fs1 : FS) (d f : String) (v : Nat)
    (hd : d ≠ "") (hfs : '/' ∉ f.data)
    (hcore : back_up_live_file_core settings fs (joinPath d f) = .ok (fs1, v)) :
    ∃ le : FileEntry, fsFind fs (joinPath d f) = some le ∧
      v = next_backup_version
          (fsWrite fs (joinPath (joinPath settings.backup_dest_path (fileNameStr d))
            ("_" ++ f)) le.size le.mtime)
          (joinPath settings.backup_dest_path (fileNameStr d)) f ∧
      fs1 = fsRename
          (fsWrite fs (joinPath (joinPath settings.backup_dest_path (fileNameStr d))
            ("_" ++ f)) le.size le.mtime)
          (joinPath (joinPath settings.backup_dest_path (fileNameStr d)) ("_" ++ f))
          (joinPath (joinPath settings.backup_dest_path (fileNameStr d))
            (f ++ "." ++ natRepr v)) := by
  unfold back_up_live_file_core at hcore
  rw [parent_join d f hd hfs, fileName_join d f hfs] at hcore
  unfold get_file_metadata at hcore
  cases hle : fsFind fs (joinPath d f) with
  | none =>
    rw [hle] at hcore
    exact Except.noConfusion hcore
  | some le =>
    rw [hle] at hcore
    simp only [Except.ok.injEq, Prod.mk.injEq] at hcore
    obtain ⟨h1, h2⟩ := hcore
    refine ⟨le, rfl, h2.symm, ?_⟩
    rw [← h1, ← h2]

/-- A successful backup never lowers the next version number, and the number it
assigned is below the next one. -/
theorem backup_preserves_max (settings : Settings) (fs fs1 : FS) (d f : String) (v : Nat)
    (hd : d ≠ "") (hfs : '/' ∉ f.data) (hfolder : fileNameStr d ≠ "")
    (hmeta : ∀ c ∈ f.data, c ≠ '*' ∧ c ≠ '?') (hv : v < 4294967296)
    (hcore : back_up_live_file_core settings fs (joinPath d f) = .ok (fs1, v)) :
    next_backup_version fs (joinPath settings.backup_dest_path (fileNameStr d)) f ≤
      next_backup_version fs1 (joinPath settings.backup_dest_path (fileNameStr d)) f ∧
    v < next_backup_version fs1 (joinPath settings.backup_dest_path (fileNameStr d)) f := by
  obtain ⟨le, hle, -, hfs1⟩ := back_up_core_spec settings fs fs1 d f v hd hfs hcore
  have hDFne : joinPath settings.backup_dest_path (fileNameStr d) ≠ "" :=
    join_ne_empty _ _ hfolder
  have htemp_ns : '/' ∉ ("_" ++ f).data := by
    rw [underscore_data]
    intro hh
    rcases List.mem_cons.1 hh with hh | hh
    · exact absurd hh (by decide)
    · exact hfs hh
  have htemp_fn : fileNameStr (joinPath (joinPath settings.backup_dest_path (fileNameStr d))
      ("_" ++ f)) = "_" ++ f := fileName_join _ _ htemp_ns
  have hXmem : (⟨joinPath (joinPath settings.backup_dest_path (fileNameStr d))
      (f ++ "." ++ natRepr v), le.size, le.mtime⟩ : FileEntry) ∈ fs1 := by
    rw [hfs1, fsRename_write]
    exact List.mem_cons_self _ _
  have hXparent : parentStr (joinPath (joinPath settings.backup_dest_path (fileNameStr d))
      (f ++ "." ++ natRepr v)) = joinPath settings.backup_dest_path (fileNameStr d) :=
    parent_join _ _ hDFne (vname_no_slash f v hfs)
  have hXfn : fileNameStr (joinPath (joinPath settings.backup_dest_path (fileNameStr d))
      (f ++ "." ++ natRepr v)) = f ++ "." ++ natRepr v :=
    fileName_join _ _ (vname_no_slash f v hfs)
  have hXglob : joinPath (joinPath settings.backup_dest_path (fileNameStr d))
      (f ++ "." ++ natRepr v) ∈
      globDir fs1 (joinPath settings.backup_dest_path (fileNameStr d)) (f ++ ".*") := by
    refine (mem_globDir _ _ _ _).2 ⟨_, hXmem, rfl, hXparent, ?_⟩
    rw [hXfn]
    exact vname_matches_version_glob f v
  have htransfer : ∀ p ∈ globDir fs (joinPath settings.backup_dest_path (fileNameStr d))
      (f ++ ".*"),
      p ∈ globDir fs1 (joinPath settings.backup_dest_path (fileNameStr d)) (f ++ ".*") := by
    intro p hp
    obtain ⟨e, he, rfl, hpar, hmatch⟩ := (mem_globDir _ _ _ _).1 hp
    have hne_temp : e.path ≠ joinPath (joinPath settings.backup_dest_path (fileNameStr d))
        ("_" ++ f) := by
      intro hh
      apply underscore_not_version_glob f hmeta
      rw [← htemp_fn, ← hh]
      exact hmatch
    by_cases hX : e.path = joinPath (joinPath settings.backup_dest_path (fileNameStr d))
        (f ++ "." ++ natRepr v)
    · rw [hX]
      exact hXglob
    · have he1 : e ∈ fs1 := by
        rw [hfs1, fsRename_write]
        refine List.mem_cons_of_mem _ ?_
        rw [mem_fsRemove]
        refine ⟨?_, hX⟩
        rw [mem_fsRemove]
        refine ⟨?_, hne_temp⟩
        unfold fsWrite
        refine List.mem_cons_of_mem _ ?_
        rw [mem_fsRemove]
        exact ⟨he, hne_temp⟩
      exact (mem_globDir _ _ _ _).2 ⟨e, he1, rfl, hpar, hmatch⟩
  constructor
  · unfold next_backup_version
    have h1 := (foldl_max_le_iff (fun p => (get_backed_up_version_number p).getD 0)
      (globDir fs (joinPath settings.backup_dest_path (fileNameStr d)) (f ++ ".*")) 0
      ((globDir fs1 (joinPath settings.backup_dest_path (fileNameStr d))
        (f ++ ".*")).foldl (fun acc p => max acc ((get_backed_up_version_number p).getD 0))
        0)).2
      ⟨Nat.zero_le _, fun x hx =>
        le_foldl_max_mem (fun p => (get_backed_up_version_number p).getD 0) _ 0 x
          (htransfer x hx)⟩
    omega
  · unfold next_backup_version
    have h2 := le_foldl_max_mem (fun p => (get_backed_up_version_number p).getD 0)
      (globDir fs1 (joinPath settings.backup_dest_path (fileNameStr d)) (f ++ ".*")) 0 _
      hXglob
    have h2b : (get_backed_up_version_number (joinPath
        (joinPath settings.backup_dest_path (fileNameStr d))
        (f ++ "." ++ natRepr v))).getD 0 ≤
        (globDir fs1 (joinPath settings.backup_dest_path (fileNameStr d))
          (f ++ ".*")).foldl
          (fun acc p => max acc ((get_backed_up_version_number p).getD 0)) 0 := h2
    rw [verVal_backed_up_path (joinPath settings.backup_dest_path (fileNameStr d)) f v
      hfs hv] at h2b
    simp only [Option.getD_some] at h2b
    omega

/-- A successful prune never lowers the next version number: the highest
globbed version (or an equal groupmate) survives the pruning of its group. -/
theorem prune_preserves_max (settings : Settings) (fs fs1 : FS) (destFolder f : String)
    (hmeta : ∀ c ∈ f.data, c ≠ '*' ∧ c ≠ '?')
    (hcnt : 1 ≤ settings.backup_count)
    (hnd : (get_backed_up_files settings fs).Nodup)
    (hdel : delete_old_backups settings fs = .ok fs1) :
    next_backup_version fs destFolder f ≤ next_backup_version fs1 destFolder f := by
  cases hg : groupByStripped [] (get_backed_up_files settings fs) with
  | error e =>
    unfold delete_old_backups at hdel
    rw [hg] at hdel
    exact Except.noConfusion hdel
  | ok gs =>
  have hfs1 : fs.filter (fun e =>
      !((gs.flatMap (fun kg => doomedOf settings.backup_count kg.2)).contains e.path))
        = fs1 := by
    unfold delete_old_backups at hdel
    rw [hg] at hdel
    simpa using hdel
  have hwf : mmWF gs := by
    refine groupByStripped_wf _ [] gs hg ?_
    intro kg hkg
    simp at hkg
  have hkeys : (mmKeys gs).Nodup := by
    refine groupByStripped_keys_nodup _ [] gs hg ?_
    simp [mmKeys]
  have hflat : (mmFlat gs).Perm (get_backed_up_files settings fs) := by
    have h1 := groupByStripped_flat_perm _ [] gs hg
    simpa [mmFlat] using h1
  have hflatnd : (mmFlat gs).Nodup := hflat.nodup_iff.2 hnd
  have hsurvive : ∀ p,
      p ∉ gs.flatMap (fun kg => doomedOf settings.backup_count kg.2) →
      ∀ e ∈ fs, e.path = p → e ∈ fs1 := by
    intro p hnotd e he hep
    rw [← hfs1]
    refine List.mem_filter.2 ⟨he, ?_⟩
    rw [Bool.not_eq_true']
    refine Bool.eq_false_iff.2 (fun hc => hnotd ?_)
    rw [← hep]
    exact (contains_iff_mem _ _).1 hc
  unfold next_backup_version
  have key : (globDir fs destFolder (f ++ ".*")).foldl
      (fun acc p => max acc ((get_backed_up_version_number p).getD 0)) 0 ≤
      (globDir fs1 destFolder (f ++ ".*")).foldl
      (fun acc p => max acc ((get_backed_up_version_number p).getD 0)) 0 := by
    rcases foldl_max_attained (fun p => (get_backed_up_version_number p).getD 0)
      (globDir fs destFolder (f ++ ".*")) 0 with h0 | ⟨pstar, hpmem, hpval⟩
    · rw [h0]
      exact Nat.zero_le _
    · rw [hpval]
      obtain ⟨eps, heps, hepspath, hppar, hpmatch⟩ := (mem_globDir _ _ _ _).1 hpmem
      by_cases hdoomed : pstar ∈ gs.flatMap
          (fun kg => doomedOf settings.backup_count kg.2)
      · rw [List.mem_flatMap] at hdoomed
        obtain ⟨kg, hkg, hpd⟩ := hdoomed
        obtain ⟨k, g⟩ := kg
        have hpg : pstar ∈ g := doomedOf_mem_self _ g pstar hpd
        have hpfiles : pstar ∈ get_backed_up_files settings fs :=
          hflat.mem_iff.1 (mm_mem_of_mem_group gs (k, g) hkg pstar hpg)
        have hpver : (get_backed_up_version_number pstar).isSome :=
          gbf_version_isSome _ _ _ hpfiles
        have hpstrip : strip_version_suffix_from_backed_up_file_path pstar = some k :=
          hwf (k, g) hkg pstar hpg
        have hgnd : g.Nodup :=
          List.Nodup.sublist (mm_group_sublist_flat gs (k, g) hkg) hflatnd
        have hsrtnd : (sortByVersion g).Nodup := (sortByVersion_perm g).nodup_iff.2 hgnd
        have hlen : settings.backup_count < g.length := by
          by_contra hh
          unfold doomedOf at hpd
          rw [if_neg hh] at hpd
          simp at hpd
        have hdoomeq : doomedOf settings.backup_count g =
            (sortByVersion g).take (g.length - settings.backup_count) := by
          unfold doomedOf
          rw [if_pos hlen]
        have hkept_ne : (sortByVersion g).drop (g.length - settings.backup_count) ≠ [] := by
          intro hh
          have h2 := congrArg List.length hh
          rw [List.length_drop, length_sortByVersion] at h2
          simp at h2
          omega
        obtain ⟨q, hq⟩ := List.exists_mem_of_ne_nil _ hkept_ne
        have hqsrt : q ∈ sortByVersion g := List.mem_of_mem_drop hq
        have hqg : q ∈ g := (mem_sortByVersion g q).1 hqsrt
        have hqfiles : q ∈ get_backed_up_files settings fs :=
          hflat.mem_iff.1 (mm_mem_of_mem_group gs (k, g) hkg q hqg)
        have hqver : (get_backed_up_version_number q).isSome :=
          gbf_version_isSome _ _ _ hqfiles
        have hqstrip : strip_version_suffix_from_backed_up_file_path q = some k :=
          hwf (k, g) hkg q hqg
        have hpm2 : globMatch (f ++ ".*").data (fileNameStr pstar).data = true := hpmatch
        obtain ⟨hqpar, hqmatch⟩ := group_members_match f hmeta pstar q k hpm2
          hpstrip hpver hqstrip hqver
        have hval : (get_backed_up_version_number pstar).getD 0 ≤
            (get_backed_up_version_number q).getD 0 := by
          have hsplit := List.take_append_drop (g.length - settings.backup_count)
            (sortByVersion g)
          have hpw := sortByVersion_pairwise g
          rw [← hsplit] at hpw
          have htake : pstar ∈ (sortByVersion g).take
              (g.length - settings.backup_count) := by
            rw [← hdoomeq]
            exact hpd
          exact (List.pairwise_append.1 hpw).2.2 pstar htake q hq
        have hqnotd : q ∉ gs.flatMap (fun kg => doomedOf settings.backup_count kg.2) := by
          intro hmem
          rw [List.mem_flatMap] at hmem
          obtain ⟨kg2, hkg2, hqd2⟩ := hmem
          obtain ⟨k2, g2⟩ := kg2
          have hqg2 : q ∈ g2 := doomedOf_mem_self _ g2 q hqd2
          have hqs2 : strip_version_suffix_from_backed_up_file_path q = some k2 :=
            hwf (k2, g2) hkg2 q hqg2
          rw [hqstrip] at hqs2
          injection hqs2 with hk2
          subst hk2
          have hgg : g2 = g := mm_key_entry_unique gs hkeys k g2 g hkg2 hkg
          rw [hgg, hdoomeq] at hqd2
          have hdisj := (List.nodup_append.1 ((List.take_append_drop
            (g.length - settings.backup_count) (sortByVersion g)) ▸ hsrtnd)).2.2
          exact hdisj hqd2 hq
        obtain ⟨eq2, heq2, heq2path⟩ := gbf_exists_entry settings fs q hqfiles
        have heq2fs1 : eq2 ∈ fs1 := hsurvive q hqnotd eq2 heq2 heq2path
        have hqglob : q ∈ globDir fs1 destFolder (f ++ ".*") := by
          refine (mem_globDir _ _ _ _).2 ⟨eq2, heq2fs1, heq2path, ?_, hqmatch⟩
          rw [hqpar]
          exact hppar
        have hfinb : (get_backed_up_version_number q).getD 0 ≤
            (globDir fs1 destFolder (f ++ ".*")).foldl
            (fun acc p => max acc ((get_backed_up_version_number p).getD 0)) 0 :=
          le_foldl_max_mem (fun p => (get_backed_up_version_number p).getD 0)
            (globDir fs1 destFolder (f ++ ".*")) 0 q hqglob
        omega
      · have heps1 : eps ∈ fs1 := hsurvive pstar hdoomed eps heps hepspath
        have hpglob1 : pstar ∈ globDir fs1 destFolder (f ++ ".*") :=
          (mem_globDir _ _ _ _).2 ⟨eps, heps1, hepspath, hppar, hpmatch⟩
        exact le_foldl_max_mem (fun p => (get_backed_up_version_number p).getD 0)
          (globDir fs1 destFolder (f ++ ".*")) 0 pstar hpglob1
  omega

/-- Along a trace of backups and prunes satisfying the side conditions, the
next version number of the designated identity never decreases. -/
theorem runOps_next_version_mono (settings : Settings) (d f : String)
    (hd : d ≠ "") (hfs : '/' ∉ f.data) (hfolder : fileNameStr d ≠ "")
    (hmeta : ∀ c ∈ f.data, c ≠ '*' ∧ c ≠ '?') (hcnt : 1 ≤ settings.backup_count) :
    ∀ (ops : List LedgerOp) (fs0 : FS),
      okAlong settings (joinPath d f) ops fs0 = true →
      next_backup_version fs0 (joinPath settings.backup_dest_path (fileNameStr d)) f ≤
        next_backup_version (runOps settings (joinPath d f) ops fs0).1
          (joinPath settings.backup_dest_path (fileNameStr d)) f := by
  intro ops
  induction ops with
  | nil =>
    intro fs0 _
    exact le_rfl
  | cons op rest ih =>
    intro fs0 hok
    cases op with
    | backup =>
      unfold runOps
      unfold okAlong at hok
      cases hcore : back_up_live_file_core settings fs0 (joinPath d f) with
      | error e =>
        rw [hcore] at hok
        exact ih fs0 hok
      | ok r =>
        obtain ⟨fs1, v⟩ := r
        rw [hcore] at hok
        simp only [Bool.and_eq_true, decide_eq_true_eq] at hok
        obtain ⟨hv, hok2⟩ := hok
        obtain ⟨hmono, -⟩ :=
          backup_preserves_max settings fs0 fs1 d f v hd hfs hfolder hmeta hv hcore
        exact le_trans hmono (ih fs1 hok2)
    | prune =>
      unfold runOps
      unfold okAlong at hok
      simp only [Bool.and_eq_true, decide_eq_true_eq] at hok
      obtain ⟨hnd, hok2⟩ := hok
      cases hdel : delete_old_backups settings fs0 with
      | error e =>
        rw [hdel] at hok2
        exact ih fs0 hok2
      | ok fs1 =>
        rw [hdel] at hok2
        exact le_trans
          (prune_preserves_max settings fs0 fs1 _ f hmeta hcnt hnd hdel)
          (ih fs1 hok2)

/-- Claim C1 (amended).  For one designated live file and any sequence of
back-up and prune operations, under the side conditions forced by the
counterexample and by the u32 arithmetic of the source, every version number
the trace assigned is strictly below the next version number computed on the
final filesystem: numbers are never reused even after pruning deletes lower
versions.  Side conditions: the retention count is at least one, every
assigned number fits in a u32, and at each prune the backed-up listing is
duplicate-free, which overlapping patterns would violate. -/
theorem version_number_monotonic_after_pruning (settings : Settings) (d f : String)
    (hd : d ≠ "") (hfs : '/' ∉ f.data) (hfolder : fileNameStr d ≠ "")
    (hmeta : ∀ c ∈ f.data, c ≠ '*' ∧ c ≠ '?') (hcnt : 1 ≤ settings.backup_count) :
    ∀ (ops : List LedgerOp) (fs0 : FS),
      okAlong settings (joinPath d f) ops fs0 = true →
      ∀ a ∈ (runOps settings (joinPath d f) ops fs0).2,
        a < next_backup_version (runOps settings (joinPath d f) ops fs0).1
            (joinPath settings.backup_dest_path (fileNameStr d)) f := by
  intro ops
  induction ops with
  | nil =>
    intro fs0 _ a ha
    simp [runOps] at ha
  | cons op rest ih =>
    intro fs0 hok a ha
    cases op with
    | backup =>
      unfold runOps at ha ⊢
      unfold okAlong at hok
      cases hcore : back_up_live_file_core settings fs0 (joinPath d f) with
      | error e =>
        rw [hcore] at hok ha
        exact ih fs0 hok a ha
      | ok r =>
        obtain ⟨fs1, v⟩ := r
        rw [hcore] at hok ha
        simp only [Bool.and_eq_true, decide_eq_true_eq] at hok
        obtain ⟨hv, hok2⟩ := hok
        have ha2 : a ∈ v :: (runOps settings (joinPath d f) rest fs1).2 := ha
        rcases List.mem_cons.1 ha2 with rfl | ha3
        · obtain ⟨-, hvlt⟩ :=
            backup_preserves_max settings fs0 fs1 d f a hd hfs hfolder hmeta hv hcore
          exact lt_of_lt_of_le hvlt
            (runOps_next_version_mono settings d f hd hfs hfolder hmeta hcnt rest fs1 hok2)
        · exact ih fs1 hok2 a ha3
    | prune =>
      unfold runOps at ha ⊢
      unfold okAlong at hok
      simp only [Bool.and_eq_true, decide_eq_true_eq] at hok
      obtain ⟨hnd, hok2⟩ := hok
      cases hdel : delete_old_backups settings fs0 with
      | error e =>
        rw [hdel] at hok2 ha
        exact ih fs0 hok2 a ha
      | ok fs1 =>
        rw [hdel] at hok2 ha
        exact ih fs1 hok2 a ha

theorem version_number_monotonic_after_pruning_witness :
    okAlong ⟨[⟨"/s", "*.db"⟩], "/d", 1⟩ (joinPath "/s" "a.db")
        [.backup, .prune, .backup] [⟨"/s/a.db", 5, 10⟩] = true ∧
    (∀ a ∈ (runOps ⟨[⟨"/s", "*.db"⟩], "/d", 1⟩ (joinPath "/s" "a.db")
        [.backup, .prune, .backup] [⟨"/s/a.db", 5, 10⟩]).2,
      a < next_backup_version
          (runOps ⟨[⟨"/s", "*.db"⟩], "/d", 1⟩ (joinPath "/s" "a.db")
            [.backup, .prune, .backup] [⟨"/s/a.db", 5, 10⟩]).1
          (joinPath "/d" (fileNameStr "/s")) "a.db") :=
  ⟨by decide,
    version_number_monotonic_after_pruning ⟨[⟨"/s", "*.db"⟩], "/d", 1⟩ "/s" "a.db"
      (by decide) (by decide) (by decide) (by decide) le_rfl
      [.backup, .prune, .backup] [⟨"/s/a.db", 5, 10⟩] (by decide)⟩

/-- Claim C1, counterexample to the claim as stated: with the overlapping
patterns star-dot-db and a-dot-star and retention count one, a backup assigns
version one, the pruner then sees the single backup listed twice, treats the
group as oversized and deletes the only version, and next_backup_version
afterwards returns one again, not a number strictly greater than the
previously assigned one. -/
theorem version_monotonicity_fails_with_overlapping_patterns :
    (runOps ⟨[⟨"/s", "*.db"⟩, ⟨"/s", "a.*"⟩], "/d", 1⟩ "/s/a.db"
        [.backup, .prune] [⟨"/s/a.db", 5, 10⟩]).2 = [1] ∧
    next_backup_version
        (runOps ⟨[⟨"/s", "*.db"⟩, ⟨"/s", "a.*"⟩], "/d", 1⟩ "/s/a.db"
          [.backup, .prune] [⟨"/s/a.db", 5, 10⟩]).1
        "/d/s" "a.db" = 1 := by
  exact ⟨rfl, rfl⟩

end Valbak
